import Mathlib

/-!
Verification development for the `wakeonlan` Go repository
(package `wakeonlan`, file `pkg/magic/magic.go`, current version).

The Go code is shallowly embedded as executable Lean functions:

* a `Packet` payload (`bytes.Buffer`) is a `List Nat` of byte values;
* strings are handled through `String.data : List Char` (every string that
  `net.ParseMAC` / `net.ParseIP` / `strconv.Atoi` accepts is pure ASCII, where
  Go byte indexing and Lean char indexing agree; any string containing a
  non-ASCII character is rejected by both the Go code and this model);
* fallible Go functions returning `(T, error)` become `Except GoErr T`, and
  the mutation of the packet buffer becomes explicit state passing;
* the network is abstracted by an oracle `NetModel` saying whether
  `net.DialUDP` and `conn.Write` succeed, and the side effects performed on the
  socket are recorded as an explicit `NetEvent` trace.
-/

set_option maxRecDepth 10000

namespace WakeOnLan

/-! ### Definitions -/

/-- Byte values `0..255`; the embedding of a Go `[]byte` is `List Nat`. -/
abbrev Payload := List Nat

/-- Go `'0' <= c && c <= '9'` (decimal digit test used by `strconv` and
`net` parsing code). -/
def isDigitGo (c : Char) : Bool := '0' ≤ c && c ≤ '9'

/-- Hex-digit test of Go `net.xtoi`: `0-9`, `a-f`, `A-F`. -/
def isHexGo (c : Char) : Bool :=
  ('0' ≤ c && c ≤ '9') || ('a' ≤ c && c ≤ 'f') || ('A' ≤ c && c ≤ 'F')

/-- Numeric value of a hex digit, as computed by Go `net.xtoi`. -/
def hexVal (c : Char) : Nat :=
  if '0' ≤ c && c ≤ '9' then c.toNat - '0'.toNat
  else if 'a' ≤ c && c ≤ 'f' then c.toNat - 'a'.toNat + 10
  else c.toNat - 'A'.toNat + 10

/-- The byte encoded by two hex digits (Go `net.xtoi2`). -/
def hexByte (c1 c2 : Char) : Nat := hexVal c1 * 16 + hexVal c2

/-- The group-parsing loop of Go `net.ParseMAC` for the `:`/`-` formats:
`n` groups of two hex digits separated by `sep` (each iteration runs
`hw[i], ok = xtoi2(s[x:], s[2])` and advances `x += 3`, so the last group is
two bare hex digits and every earlier group is two hex digits followed by the
separator).  `ParseMAC` only calls this with `n ≥ 6` and `l.length = 3*n - 1`,
which the arithmetic checks preceding the loop guarantee; on argument shapes
the Go loop can never see, the function returns `none`. -/
def parseGroups (sep : Char) : Nat → List Char → Option (List Nat)
  | 1, [c1, c2] =>
    if isHexGo c1 && isHexGo c2 then some [hexByte c1 c2] else none
  | n + 2, c1 :: c2 :: d :: rest =>
    if isHexGo c1 && isHexGo c2 then
      if d = sep then (parseGroups sep (n + 1) rest).map (fun bs => hexByte c1 c2 :: bs)
      else none
    else none
  | _, _ => none

/-- The group-parsing loop of Go `net.ParseMAC` for the `.` format: `n` groups
of four hex digits (two bytes each) separated by `.` (each iteration runs
`xtoi2(s[x:x+2], 0)` then `xtoi2(s[x+2:], '.')` and advances `x += 5`).
`ParseMAC` only calls this with `n ≥ 3` and `l.length = 5*n - 1`. -/
def parseDotGroups : Nat → List Char → Option (List Nat)
  | 1, [c1, c2, c3, c4] =>
    if isHexGo c1 && isHexGo c2 && isHexGo c3 && isHexGo c4 then
      some [hexByte c1 c2, hexByte c3 c4]
    else none
  | n + 2, c1 :: c2 :: c3 :: c4 :: d :: rest =>
    if isHexGo c1 && isHexGo c2 && isHexGo c3 && isHexGo c4 then
      if d = '.' then
        (parseDotGroups (n + 1) rest).map (fun bs => hexByte c1 c2 :: hexByte c3 c4 :: bs)
      else none
    else none
  | _, _ => none

/-- Embedding of Go `net.ParseMAC` (`src/net/mac.go`): accepts `:`- or
`-`-separated hex pairs and `.`-separated groups of four hex digits, encoding
6, 8 or 20 octets; everything else is rejected (`nil, &AddrError{...}`).
Go's local `n` (the octet count, `(len(s)+1)/3` in the `:`/`-` case and
`2*(len(s)+1)/5` in the `.` case) is inlined. -/
def parseMAC (s : List Char) : Option (List Nat) :=
  if s.length < 14 then none
  else
    match s[2]? with
    | some c =>
      if c = ':' || c = '-' then
        if (s.length + 1) % 3 = 0 then
          if (s.length + 1) / 3 = 6 || (s.length + 1) / 3 = 8 || (s.length + 1) / 3 = 20 then
            parseGroups c ((s.length + 1) / 3) s
          else none
        else none
      else if s[4]? = some '.' then
        if (s.length + 1) % 5 = 0 then
          if 2 * (s.length + 1) / 5 = 6 || 2 * (s.length + 1) / 5 = 8 ||
              2 * (s.length + 1) / 5 = 20 then
            parseDotGroups (2 * (s.length + 1) / 5 / 2) s
          else none
        else none
      else none
    | none => none

/-- Errors produced by the embedded Go code.  Each constructor records one
`error` value the Go code can build, and wrapping constructors record
`fmt.Errorf("...: %w", err)` chains, so that propagation of causes is visible
in the model. -/
inductive GoErr where
  /-- `net.ParseMAC`: `&AddrError{Err: "invalid MAC address", Addr: s}`. -/
  | parseMACFail (addr : List Char)
  /-- `WriteMAC`: `fmt.Errorf("invalid MAC address %q: %w", addr, err)`. -/
  | invalidMAC (addr : List Char) (cause : GoErr)
  /-- `getRAddr`: `fmt.Errorf("invalid remote address %q", addr)`. -/
  | invalidRemote (addr : List Char)
  /-- `strconv.Atoi`: `*NumError` with `ErrSyntax`. -/
  | atoiSyntax (s : List Char)
  /-- `strconv.Atoi`: `*NumError` with `ErrRange`. -/
  | atoiRange (s : List Char)
  /-- `getPort`: `fmt.Errorf("invalid port %q: %w", port, err)`. -/
  | invalidPort (port : List Char) (cause : GoErr)
  /-- `getPort`: `fmt.Errorf("port %d not supported (use 0, 7, or 9)", n)`. -/
  | portNotSupported (n : Int)
  /-- `SendUDP`: `fmt.Errorf("parse remote IP: %w", err)`. -/
  | parseRemoteIP (cause : GoErr)
  /-- `SendUDP`: `fmt.Errorf("parse port: %w", err)`. -/
  | parsePort (cause : GoErr)
  /-- `SendUDP`: `fmt.Errorf("dial UDP: %w", err)`. -/
  | dialUDP (cause : GoErr)
  /-- `SendUDP`: `fmt.Errorf("write UDP packet: %w", err)`. -/
  | writeUDP (cause : GoErr)
  /-- `SendMagic`: `fmt.Errorf("write MAC address: %w", err)`. -/
  | writeMACStage (cause : GoErr)
  /-- `SendMagic`: `fmt.Errorf("send UDP: %w", err)`. -/
  | sendUDPStage (cause : GoErr)
  /-- `SendMagic`: `fmt.Errorf("password-protected Wake-on-LAN not supported yet")`. -/
  | passwdUnsupported
  /-- An abstract OS-level network error returned by `net.DialUDP` or `conn.Write`. -/
  | osNetErr (tag : Nat)
  deriving DecidableEq, Repr

/-- Embedding of `(*Packet).writeHeader` (magic.go lines 46-50): appends 6 bytes of `0xFF`
to the payload buffer. -/
def writeHeader (p : Payload) : Payload := p ++ List.replicate 6 0xFF

/-- Embedding of `(*Packet).WriteMAC` (magic.go lines 72-85): parses `addr` with
`net.ParseMAC`; on failure returns the wrapping error and leaves the buffer
untouched, on success appends the parsed hardware address 16 times. -/
def writeMAC (p : Payload) (addr : List Char) : Option GoErr × Payload :=
  match parseMAC addr with
  | none => (some (.invalidMAC addr (.parseMACFail addr)), p)
  | some hw => (none, p ++ (List.replicate 16 hw).flatten)

/-- The field-parsing loop of Go `netip.parseIPv4` (`net.ParseIP` delegates to
`netip.ParseAddr`): dotted-quad decimal, each field of one to three digits with
no leading zero and value at most 255, exactly four fields.  The state is
`val`/`digLen` for the field being read and `fields` for the completed ones
(Go's `pos` is `fields.length`); `digLen = 0` holds exactly at the start of the
string or right after a `.`, so it expresses Go's `i == 0 || s[i-1] == '.'`
test, and `rest = []` expresses `i == len(s)-1`. -/
def parseIPv4Fields : List Char → Nat → Nat → List Nat → Option (List Nat)
  | [], val, _, fields => if fields.length < 3 then none else some (fields ++ [val])
  | c :: rest, val, digLen, fields =>
    if isDigitGo c then
      if digLen = 1 && val = 0 then none
      else
        let v := val * 10 + (c.toNat - '0'.toNat)
        if 255 < v then none else parseIPv4Fields rest v (digLen + 1) fields
    else if c = '.' then
      if digLen = 0 || rest = [] then none
      else if fields.length = 3 then none
      else parseIPv4Fields rest 0 0 (fields ++ [val])
    else none

/-- Embedding of Go `netip.parseIPv4`: the four bytes of a strict dotted-quad
IPv4 literal, or `none`. -/
def parseIPv4 (s : List Char) : Option (List Nat) := parseIPv4Fields s 0 0 []

/-- The post-loop processing of Go `netip.parseIPv6`: with `i` bytes written,
either the whole 16 bytes were produced (then a `::` would have expanded to
nothing and is an error), or an `::` recorded at byte position `e` expands to
`16 - i` zero bytes. -/
def finishIPv6 (acc : List Nat) (i : Nat) (ellipsis : Option Nat) : Option (List Nat) :=
  if i < 16 then
    match ellipsis with
    | none => none
    | some e => some (acc.take e ++ List.replicate (16 - i) 0 ++ acc.drop e)
  else
    match ellipsis with
    | some _ => none
    | none => some acc

/-- The main loop of Go `netip.parseIPv6` (zone already handled by the
caller): while fewer than 16 bytes are written, read a group of one to four
hex digits; a following `.` switches to an embedded IPv4 address for the last
four bytes, a following `:` continues (with `::` recording the ellipsis
position, allowed once), and end of input leaves the loop.  The loop body runs
at most eight times (each pass writes two bytes, and the guard stops at 16),
so from `i = 0` a fuel of 8 is never exhausted; the fuel-out branch is
unreachable for the arguments used. -/
def parseIPv6Loop (fuel : Nat) (l : List Char) (i : Nat) (ellipsis : Option Nat)
    (acc : List Nat) : Option (List Nat) :=
  if 16 ≤ i then (if l = [] then finishIPv6 acc i ellipsis else none)
  else
    match fuel with
    | 0 => none
    | fuel + 1 =>
      let run := l.takeWhile isHexGo
      let rest := l.dropWhile isHexGo
      if run.length = 0 then none
      else if 4 < run.length then none
      else
        let v := run.foldl (fun a c => a * 16 + hexVal c) 0
        match rest with
        | '.' :: _ =>
          if ellipsis = none && i ≠ 12 then none
          else if 16 < i + 4 then none
          else
            match parseIPv4 l with
            | none => none
            | some b4 => finishIPv6 (acc ++ b4) (i + 4) ellipsis
        | [] => finishIPv6 (acc ++ [v / 256, v % 256]) (i + 2) ellipsis
        | ':' :: rest2 =>
          match rest2 with
          | [] => none
          | ':' :: rest3 =>
            if ellipsis.isSome then none
            else if rest3 = [] then finishIPv6 (acc ++ [v / 256, v % 256]) (i + 2) (some (i + 2))
            else parseIPv6Loop fuel rest3 (i + 2) (some (i + 2)) (acc ++ [v / 256, v % 256])
          | _ => parseIPv6Loop fuel rest2 (i + 2) ellipsis (acc ++ [v / 256, v % 256])
        | _ => none

/-- Embedding of Go `netip.parseIPv6` for zone-free input: an optional leading
`::` (which alone denotes the all-zero address), then the main loop. -/
def parseIPv6 (l : List Char) : Option (List Nat) :=
  match l with
  | ':' :: ':' :: rest =>
    if rest = [] then some (List.replicate 16 0)
    else parseIPv6Loop 8 rest 0 (some 0) []
  | _ => parseIPv6Loop 8 l 0 none []

/-- The 16-byte (IPv4-in-IPv6) form of a 4-byte IPv4 address: both
`net.ParseIP` on a dotted quad and `net.IPv4` produce this representation. -/
def v4InV6 (b4 : List Nat) : Payload :=
  [0, 0, 0, 0, 0, 0, 0, 0, 0, 0, 0xFF, 0xFF] ++ b4

/-- Embedding of Go `net.ParseIP`, which calls `netip.ParseAddr` and rejects
any result that carries a zone.  `ParseAddr` dispatches on the first special
character of the input: `.` selects IPv4 parsing, `:` selects IPv6 parsing,
and a `%` seen first is an immediate error.  Every input containing `%`
produces nil from `net.ParseIP`: if `%` comes before any `.` or `:` the
dispatch fails; if the dispatch picks IPv4 the `%` is an invalid character;
if it picks IPv6 the part after `%` is a zone (empty zone is a parse error,
and a non-empty zone is rejected by `net.ParseIP` itself). -/
def netParseIP (l : List Char) : Option Payload :=
  if l.contains '%' then none
  else
    match l.find? (fun c => c = '.' || c = ':') with
    | some c =>
      if c = '.' then (parseIPv4 l).map v4InV6
      else if c = ':' then parseIPv6 l
      else none
    | none => none

/-- Embedding of `getRAddr` (magic.go lines 157-168): the broadcast address for empty
input, otherwise `net.ParseIP` with an error on failure. -/
def getRAddr (addr : List Char) : Except GoErr Payload :=
  if addr = [] then .ok (v4InV6 [255, 255, 255, 255])
  else
    match netParseIP addr with
    | none => .error (.invalidRemote addr)
    | some ip => .ok ip

/-- Value of a decimal digit string (the accumulation loop of `strconv`). -/
def decVal (l : List Char) : Nat := l.foldl (fun a c => a * 10 + (c.toNat - '0'.toNat)) 0

/-- The digit-scanning and range-checking part of Go `strconv.Atoi` (which
delegates to `ParseInt`/`ParseUint` for base 10 on a 64-bit platform): `s0` is
the original string (recorded in the `*NumError`), `digits` the part after the
optional sign, `neg` whether the sign was `-`.  One or more decimal digits are
required, and the resulting magnitude is limited to the `int64` range. -/
def atoiDigits (s0 digits : List Char) (neg : Bool) : Except GoErr Int :=
  if digits = [] then .error (.atoiSyntax s0)
  else if !digits.all isDigitGo then .error (.atoiSyntax s0)
  else if neg then
    if 2 ^ 63 < decVal digits then .error (.atoiRange s0)
    else .ok (-(decVal digits : Int))
  else
    if 2 ^ 63 - 1 < decVal digits then .error (.atoiRange s0)
    else .ok (decVal digits : Int)

/-- Embedding of Go `strconv.Atoi` on a 64-bit platform: an optional sign
followed by one or more decimal digits, with the magnitude limited to the
`int64` range; anything else is a syntax error, and out-of-range input is a
range error. -/
def atoi (s : List Char) : Except GoErr Int :=
  match s with
  | [] => .error (.atoiSyntax s)
  | c :: rest =>
    if c = '-' then atoiDigits s rest true
    else if c = '+' then atoiDigits s rest false
    else atoiDigits s s false

/-- Embedding of `getPort` (magic.go lines 172-195): the default port 9 for empty input,
otherwise `strconv.Atoi` followed by the accepted-port check. -/
def getPort (port : List Char) : Except GoErr Int :=
  let acceptedPorts : List Int := [0, 7, 9]
  let defaultPort : Int := 9
  if port = [] then .ok defaultPort
  else
    match atoi port with
    | .error e => .error (.invalidPort port e)
    | .ok portNum =>
      if portNum ∈ acceptedPorts then .ok portNum
      else .error (.portNotSupported portNum)

/-- Outcome oracle for the two OS calls in `SendUDP`: whether `net.DialUDP`
fails and whether `conn.Write` fails, each with an abstract error tag. -/
structure NetModel where
  dialErr : Option Nat
  writeErr : Option Nat

/-- Observable side effects `SendUDP` performs on the network. -/
inductive NetEvent where
  | dial (ip : Payload) (port : Int)
  | write (payload : Payload)
  | close
  deriving DecidableEq, Repr

/-- Embedding of `(*Packet).SendUDP` (magic.go lines 121-152): resolve the remote address,
resolve the port, dial, write, with `defer conn.Close()` armed after a
successful dial (so the close is the last effect on both the write-success and
write-failure paths).  Returns the Go return value together with the trace of
network effects, in order. -/
def sendUDP (net : NetModel) (p : Payload) (ip port : List Char) :
    Except GoErr Unit × List NetEvent :=
  match getRAddr ip with
  | .error e => (.error (.parseRemoteIP e), [])
  | .ok remoteIP =>
    match getPort port with
    | .error e => (.error (.parsePort e), [])
    | .ok remotePort =>
      match net.dialErr with
      | some tag => (.error (.dialUDP (.osNetErr tag)), [.dial remoteIP remotePort])
      | none =>
        match net.writeErr with
        | some tag =>
          (.error (.writeUDP (.osNetErr tag)), [.dial remoteIP remotePort, .write p, .close])
        | none => (.ok (), [.dial remoteIP remotePort, .write p, .close])

/-- Embedding of `SendMagic` (magic.go lines 234-257): on an empty password, build the
header, write the MAC (returning its error wrapped on failure), then send via
UDP4 (returning its error wrapped on failure); on a non-empty password, fail
immediately. -/
def sendMagic (net : NetModel) (macAddr passwd ip port : List Char) :
    Except GoErr Unit × List NetEvent :=
  if passwd = [] then
    let pk0 : Payload := []
    let pk1 := writeHeader pk0
    match writeMAC pk1 macAddr with
    | (some e, _) => (.error (.writeMACStage e), [])
    | (none, pk2) =>
      match sendUDP net pk2 ip port with
      | (.error e, evs) => (.error (.sendUDPStage e), evs)
      | (.ok _, evs) => (.ok (), evs)
  else (.error .passwdUnsupported, [])

/-- The `sep`-delimited concatenation of groups:
`joinSep sep [g1, g2, g3] = g1 ++ sep :: g2 ++ sep :: g3`. -/
def joinSep (sep : Char) : List (List Char) → List Char
  | [] => []
  | [g] => g
  | g :: g2 :: gs => g ++ sep :: joinSep sep (g2 :: gs)

/-- A group of exactly two hex digits. -/
def HexPair (g : List Char) : Prop := g.length = 2 ∧ ∀ c ∈ g, isHexGo c = true

/-- A group of exactly four hex digits. -/
def HexQuad (g : List Char) : Prop := g.length = 4 ∧ ∀ c ∈ g, isHexGo c = true

/-- The byte encoded by a two-hex-digit group. -/
def pairVal (g : List Char) : Nat :=
  match g with
  | c1 :: c2 :: _ => hexByte c1 c2
  | _ => 0

/-- The two bytes encoded by a four-hex-digit group. -/
def quadVal (g : List Char) : List Nat :=
  match g with
  | c1 :: c2 :: c3 :: c4 :: _ => [hexByte c1 c2, hexByte c3 c4]
  | _ => []

/-- Spec-level grammar: a colon- or hyphen-delimited hex-pair encoding of
6, 8 or 20 octets with a uniform separator. -/
def MACShapeColon (s : List Char) : Prop :=
  ∃ sep gs, (sep = ':' ∨ sep = '-') ∧
    (gs.length = 6 ∨ gs.length = 8 ∨ gs.length = 20) ∧ (∀ g ∈ gs, HexPair g) ∧
    s = joinSep sep gs

/-- Spec-level grammar: a dot-delimited encoding in groups of four hex digits
(two octets per group) of 6, 8 or 20 octets. -/
def MACShapeDot (s : List Char) : Prop :=
  ∃ gs : List (List Char), (gs.length = 3 ∨ gs.length = 4 ∨ gs.length = 10) ∧
    (∀ g ∈ gs, HexQuad g) ∧ s = joinSep '.' gs

/-- Spec-level: a decimal octet field as `netip.parseIPv4` accepts it — one
to three decimal digits, no leading zero, value at most 255. -/
def OctetShape (f : List Char) : Prop :=
  f ≠ [] ∧ f.length ≤ 3 ∧ (∀ c ∈ f, isDigitGo c = true) ∧
    (1 < f.length → f.head? ≠ some '0') ∧ decVal f ≤ 255

/-- Spec-level: a strict dotted-quad IPv4 literal. -/
def IPv4Shape (s : List Char) : Prop :=
  ∃ fs : List (List Char), fs.length = 4 ∧ (∀ f ∈ fs, OctetShape f) ∧ s = joinSep '.' fs

instance (f : List Char) : Decidable (OctetShape f) := by
  unfold OctetShape
  infer_instance

/-- Spec-level: `s` is a textual integer with value `n` — an optional sign
followed by one or more decimal digits. -/
def IntShape (s : List Char) (n : Int) : Prop :=
  ∃ d : List Char, d ≠ [] ∧ (∀ c ∈ d, isDigitGo c = true) ∧
    ((s = d ∨ s = '+' :: d) ∧ n = (decVal d : Int) ∨ s = '-' :: d ∧ n = -(decVal d : Int))

/-! ### Sanity checks and theorems -/

-- Sanity checks against the repository's own test suite (`magic_test.go`).
example : parseMAC "00:11:22:33:44:55".data = some [0x00, 0x11, 0x22, 0x33, 0x44, 0x55] := by
  decide

example : parseMAC "00-11-22-33-44-55".data = some [0x00, 0x11, 0x22, 0x33, 0x44, 0x55] := by
  decide

example : parseMAC "AA:BB:CC:DD:EE:FF".data = some [0xAA, 0xBB, 0xCC, 0xDD, 0xEE, 0xFF] := by
  decide

example : parseMAC "00:11:22:33:44".data = none := by decide

example : parseMAC "".data = none := by decide

example : parseMAC "aabbccddeeff".data = none := by decide

example : (writeMAC (writeHeader []) "aa:bb:cc:dd:ee:ff".data).2.length = 102 := by decide

-- Sanity checks for the transmitter, again following `magic_test.go`.
example : getRAddr "".data = .ok (v4InV6 [255, 255, 255, 255]) := rfl

example : getRAddr "255.255.255.255".data = .ok (v4InV6 [255, 255, 255, 255]) := rfl

example : getRAddr "192.168.1.100".data = .ok (v4InV6 [192, 168, 1, 100]) := rfl

example : getRAddr "256.256.256.256".data = .error (.invalidRemote "256.256.256.256".data) := rfl

example : getRAddr "invalid.ip.address".data =
    .error (.invalidRemote "invalid.ip.address".data) := rfl

example : netParseIP "::1".data =
    some [0, 0, 0, 0, 0, 0, 0, 0, 0, 0, 0, 0, 0, 0, 0, 1] := rfl

example : getPort "".data = .ok 9 := rfl

example : getPort "0".data = .ok 0 := rfl

example : getPort "7".data = .ok 7 := rfl

example : getPort "9".data = .ok 9 := rfl

example : getPort "80".data = .error (.portNotSupported 80) := rfl

example : getPort "abc".data = .error (.invalidPort "abc".data (.atoiSyntax "abc".data)) := rfl

theorem length_flatten_replicate (n : Nat) (hw : List Nat) :
    ((List.replicate n hw).flatten).length = n * hw.length := by
  induction n with
  | zero => simp
  | succ k ih =>
    rw [List.replicate_succ, List.flatten_cons, List.length_append, ih, Nat.succ_mul]
    ring

theorem take_drop_flatten_replicate (hw : List Nat) (h6 : hw.length = 6) :
    ∀ k n, k < n → (((List.replicate n hw).flatten).drop (6 * k)).take 6 = hw := by
  intro k
  induction k with
  | zero =>
    intro n hn
    match n, hn with
    | m + 1, _ =>
      rw [List.replicate_succ, List.flatten_cons, Nat.mul_zero, List.drop_zero,
        List.take_left' h6]
  | succ j ih =>
    intro n hn
    match n, hn with
    | m + 1, hn =>
      have hj : j < m := by omega
      rw [List.replicate_succ, List.flatten_cons,
        show 6 * (j + 1) = hw.length + 6 * j by omega, List.drop_append]
      exact ih m hj

/-- C1: for every MAC string accepted as a valid 6-octet address, calling
`writeHeader` then `WriteMAC` on a fresh `Packet` succeeds and yields a payload
of exactly 102 bytes whose first 6 bytes are all `0xFF` and whose bytes
`[6+6k, 6+6k+6)` equal the decoded 6-byte MAC for every `k` in `0..15`. -/
theorem writeMAC_header_layout (s : List Char) (hw : List Nat)
    (hparse : parseMAC s = some hw) (h6 : hw.length = 6) :
    (writeMAC (writeHeader []) s).1 = none ∧
    (writeMAC (writeHeader []) s).2.length = 102 ∧
    (writeMAC (writeHeader []) s).2.take 6 = List.replicate 6 0xFF ∧
    ∀ k, k < 16 → (((writeMAC (writeHeader []) s).2.drop (6 + 6 * k)).take 6) = hw := by
  have hwm : writeMAC (writeHeader []) s =
      (none, List.replicate 6 0xFF ++ (List.replicate 16 hw).flatten) := by
    unfold writeMAC writeHeader
    rw [hparse]
    simp
  rw [hwm]
  refine ⟨rfl, ?_, ?_, ?_⟩
  · simp [length_flatten_replicate, h6]
  · rw [List.take_left' (by simp)]
  · intro k hk
    rw [show 6 + 6 * k = (List.replicate 6 (0xFF : Nat)).length + 6 * k by simp,
      List.drop_append]
    exact take_drop_flatten_replicate hw h6 k 16 hk

theorem writeMAC_header_layout_witness :
    parseMAC "00:11:22:33:44:55".data = some [0x00, 0x11, 0x22, 0x33, 0x44, 0x55] ∧
    (writeMAC (writeHeader []) "00:11:22:33:44:55".data).2.length = 102 :=
  ⟨by decide,
    (writeMAC_header_layout "00:11:22:33:44:55".data [0x00, 0x11, 0x22, 0x33, 0x44, 0x55]
      (by decide) (by decide)).2.1⟩

/-- C9: `writeHeader` and `WriteMAC` only append: for every prior buffer state,
`writeHeader` leaves the existing payload bytes unchanged and appends exactly 6
bytes of `0xFF`, and every successful `WriteMAC` call leaves the existing
payload bytes unchanged and appends exactly 16 contiguous copies of the parsed
address. -/
theorem builder_append_only (p : Payload) (addr : List Char) (hw : List Nat)
    (hparse : parseMAC addr = some hw) :
    (writeHeader p).take p.length = p ∧
    (writeHeader p).drop p.length = List.replicate 6 0xFF ∧
    writeMAC p addr = (none, p ++ (List.replicate 16 hw).flatten) ∧
    (writeMAC p addr).2.take p.length = p ∧
    (writeMAC p addr).2.drop p.length = (List.replicate 16 hw).flatten := by
  have hwm : writeMAC p addr = (none, p ++ (List.replicate 16 hw).flatten) := by
    unfold writeMAC
    rw [hparse]
  refine ⟨List.take_left p _, List.drop_left p _, hwm, ?_, ?_⟩ <;> rw [hwm]
  · exact List.take_left p _
  · exact List.drop_left p _

theorem builder_append_only_witness :
    (writeMAC [1, 2, 3] "00-11-22-33-44-55".data).2.take 3 = [1, 2, 3] :=
  (builder_append_only [1, 2, 3] "00-11-22-33-44-55".data
    [0x00, 0x11, 0x22, 0x33, 0x44, 0x55] (by decide)).2.2.2.1

/-- C3: for every mac, ip and port string and every network oracle, `SendMagic`
called with a non-empty password immediately returns the unsupported-feature
error, with no network effects and without consulting the MAC, IP or port
arguments (the result does not depend on them). -/
theorem sendMagic_password_unsupported (net : NetModel) (macAddr passwd ip port : List Char)
    (h : passwd ≠ []) :
    sendMagic net macAddr passwd ip port = (.error .passwdUnsupported, []) := by
  unfold sendMagic
  rw [if_neg h]

theorem sendMagic_password_unsupported_witness :
    sendMagic ⟨none, none⟩ "00:11:22:33:44:55".data "secret".data "".data "".data =
      (.error .passwdUnsupported, []) :=
  sendMagic_password_unsupported ⟨none, none⟩ "00:11:22:33:44:55".data "secret".data
    "".data "".data (by decide)

/-- C6: for every malformed MAC string, `WriteMAC` returns an error and leaves
the payload buffer exactly as it was before the call, and `SendMagic` returns
that error (wrapped) without performing any network effect. -/
theorem writeMAC_failure_frame (net : NetModel) (p : Payload) (macAddr ip port : List Char)
    (hbad : parseMAC macAddr = none) :
    writeMAC p macAddr = (some (.invalidMAC macAddr (.parseMACFail macAddr)), p) ∧
    sendMagic net macAddr [] ip port =
      (.error (.writeMACStage (.invalidMAC macAddr (.parseMACFail macAddr))), []) := by
  have h1 : ∀ q : Payload, writeMAC q macAddr =
      (some (.invalidMAC macAddr (.parseMACFail macAddr)), q) := by
    intro q
    unfold writeMAC
    rw [hbad]
  refine ⟨h1 p, ?_⟩
  simp only [sendMagic, if_pos rfl, h1, if_true]

theorem writeMAC_failure_frame_witness :
    sendMagic ⟨none, none⟩ "bad-mac".data [] "255.255.255.255".data "9".data =
      (.error (.writeMACStage (.invalidMAC "bad-mac".data (.parseMACFail "bad-mac".data))),
        []) :=
  (writeMAC_failure_frame ⟨none, none⟩ [] "bad-mac".data "255.255.255.255".data "9".data
    (by decide)).2

theorem sendUDP_eq_addrfail (net : NetModel) (p : Payload) (ip port : List Char) (e : GoErr)
    (h : getRAddr ip = .error e) :
    sendUDP net p ip port = (.error (.parseRemoteIP e), []) := by
  simp only [sendUDP, h]

theorem sendUDP_eq_portfail (net : NetModel) (p : Payload) (ip port : List Char)
    (r : Payload) (e : GoErr) (hip : getRAddr ip = .ok r) (h : getPort port = .error e) :
    sendUDP net p ip port = (.error (.parsePort e), []) := by
  simp only [sendUDP, hip, h]

theorem sendUDP_eq_dialfail (net : NetModel) (p : Payload) (ip port : List Char)
    (r : Payload) (q : Int) (t : Nat) (hip : getRAddr ip = .ok r)
    (hq : getPort port = .ok q) (hd : net.dialErr = some t) :
    sendUDP net p ip port = (.error (.dialUDP (.osNetErr t)), [.dial r q]) := by
  simp only [sendUDP, hip, hq, hd]

theorem sendUDP_eq_writefail (net : NetModel) (p : Payload) (ip port : List Char)
    (r : Payload) (q : Int) (t : Nat) (hip : getRAddr ip = .ok r)
    (hq : getPort port = .ok q) (hd : net.dialErr = none) (hw : net.writeErr = some t) :
    sendUDP net p ip port =
      (.error (.writeUDP (.osNetErr t)), [.dial r q, .write p, .close]) := by
  simp only [sendUDP, hip, hq, hd, hw]

theorem sendUDP_eq_ok (net : NetModel) (p : Payload) (ip port : List Char)
    (r : Payload) (q : Int) (hip : getRAddr ip = .ok r) (hq : getPort port = .ok q)
    (hd : net.dialErr = none) (hw : net.writeErr = none) :
    sendUDP net p ip port = (.ok (), [.dial r q, .write p, .close]) := by
  simp only [sendUDP, hip, hq, hd, hw]

theorem sendMagic_eq_macfail (net : NetModel) (macAddr ip port : List Char)
    (hbad : parseMAC macAddr = none) :
    sendMagic net macAddr [] ip port =
      (.error (.writeMACStage (.invalidMAC macAddr (.parseMACFail macAddr))), []) := by
  have h1 : writeMAC (writeHeader []) macAddr =
      (some (.invalidMAC macAddr (.parseMACFail macAddr)), writeHeader []) := by
    unfold writeMAC
    rw [hbad]
  simp only [sendMagic, if_pos rfl, h1, if_true]

theorem sendMagic_eq_send (net : NetModel) (macAddr ip port : List Char) (hw : List Nat)
    (hok : parseMAC macAddr = some hw) :
    sendMagic net macAddr [] ip port =
      (match sendUDP net (List.replicate 6 0xFF ++ (List.replicate 16 hw).flatten) ip port with
       | (.error e, evs) => (.error (.sendUDPStage e), evs)
       | (.ok _, evs) => (.ok (), evs)) := by
  have h1 : writeMAC (writeHeader []) macAddr =
      (none, List.replicate 6 0xFF ++ (List.replicate 16 hw).flatten) := by
    unfold writeMAC writeHeader
    rw [hok]
    simp
  simp only [sendMagic, if_pos rfl, h1, if_true]

/-- C8: with a valid destination and port, `SendUDP` writes the entire built
payload as a single datagram to the resolved destination/port, returns an
error wrapping the underlying network error exactly when the dial or the write
fails, and the socket close is the last effect on every path on which the
socket was opened. -/
theorem sendUDP_transmission (net : NetModel) (p : Payload) (ip port : List Char)
    (r : Payload) (q : Int) (hip : getRAddr ip = .ok r) (hport : getPort port = .ok q) :
    (net.dialErr = none → net.writeErr = none →
      sendUDP net p ip port = (.ok (), [.dial r q, .write p, .close])) ∧
    (∀ t, net.dialErr = some t →
      sendUDP net p ip port = (.error (.dialUDP (.osNetErr t)), [.dial r q])) ∧
    (∀ t, net.dialErr = none → net.writeErr = some t →
      sendUDP net p ip port =
        (.error (.writeUDP (.osNetErr t)), [.dial r q, .write p, .close])) ∧
    ((sendUDP net p ip port).1 = .ok () ↔ net.dialErr = none ∧ net.writeErr = none) ∧
    (net.dialErr = none → (sendUDP net p ip port).2.getLast? = some .close) := by
  refine ⟨fun hd hw => sendUDP_eq_ok net p ip port r q hip hport hd hw,
    fun t ht => sendUDP_eq_dialfail net p ip port r q t hip hport ht,
    fun t hd hw => sendUDP_eq_writefail net p ip port r q t hip hport hd hw, ?_, ?_⟩
  · constructor
    · intro h
      rcases hd : net.dialErr with _ | t
      · rcases hwr : net.writeErr with _ | t2
        · exact ⟨rfl, rfl⟩
        · rw [sendUDP_eq_writefail net p ip port r q t2 hip hport hd hwr] at h
          simp at h
      · rw [sendUDP_eq_dialfail net p ip port r q t hip hport hd] at h
        simp at h
    · rintro ⟨hd, hwr⟩
      rw [sendUDP_eq_ok net p ip port r q hip hport hd hwr]
  · intro hd
    rcases hwr : net.writeErr with _ | t2
    · rw [sendUDP_eq_ok net p ip port r q hip hport hd hwr]
      rfl
    · rw [sendUDP_eq_writefail net p ip port r q t2 hip hport hd hwr]
      rfl

theorem sendUDP_transmission_witness :
    sendUDP ⟨none, none⟩ [1, 2, 3] "".data "".data =
      (.ok (), [.dial (v4InV6 [255, 255, 255, 255]) 9, .write [1, 2, 3], .close]) :=
  (sendUDP_transmission ⟨none, none⟩ [1, 2, 3] "".data "".data
    (v4InV6 [255, 255, 255, 255]) 9 rfl rfl).1 rfl rfl

/-- C10: `SendUDP` validates the destination address before the port: when
both the ip string and the port string are invalid, the returned error is the
destination-address error wrapped as a parse-remote-IP failure, and the port
argument is never examined (the result is the same for every port string). -/
theorem sendUDP_addr_checked_before_port (net : NetModel) (p : Payload)
    (ip port : List Char) (hip : ip ≠ []) (hbadip : netParseIP ip = none)
    (e : GoErr) (_hbadport : getPort port = .error e) :
    sendUDP net p ip port = (.error (.parseRemoteIP (.invalidRemote ip)), []) ∧
    ∀ port2 : List Char, sendUDP net p ip port2 = sendUDP net p ip port := by
  have hr : getRAddr ip = .error (.invalidRemote ip) := by
    unfold getRAddr
    rw [if_neg hip, hbadip]
  have hs : ∀ pt : List Char, sendUDP net p ip pt =
      (.error (.parseRemoteIP (.invalidRemote ip)), []) :=
    fun pt => sendUDP_eq_addrfail net p ip pt (.invalidRemote ip) hr
  exact ⟨hs port, fun port2 => (hs port2).trans (hs port).symm⟩

theorem sendUDP_addr_checked_before_port_witness :
    sendUDP ⟨none, none⟩ [] "999.1.1.1".data "80".data =
      (.error (.parseRemoteIP (.invalidRemote "999.1.1.1".data)), []) :=
  (sendUDP_addr_checked_before_port ⟨none, none⟩ [] "999.1.1.1".data "80".data
    (by decide) (by decide) (.portNotSupported 80) rfl).1

/-- C7: every error arising at any stage of `SendMagic` (MAC encoding,
destination resolution, port resolution, dial, write) is propagated to the
caller as a returned error wrapping the originating cause, success happens
exactly when every stage succeeds, and a validation failure at any of the
three validation stages means no datagram is written. -/
theorem sendMagic_error_propagation (net : NetModel) (macAddr ip port : List Char) :
    (parseMAC macAddr = none → sendMagic net macAddr [] ip port =
      (.error (.writeMACStage (.invalidMAC macAddr (.parseMACFail macAddr))), [])) ∧
    (∀ hw e, parseMAC macAddr = some hw → getRAddr ip = .error e →
      sendMagic net macAddr [] ip port = (.error (.sendUDPStage (.parseRemoteIP e)), [])) ∧
    (∀ hw r e, parseMAC macAddr = some hw → getRAddr ip = .ok r → getPort port = .error e →
      sendMagic net macAddr [] ip port = (.error (.sendUDPStage (.parsePort e)), [])) ∧
    (∀ hw r q t, parseMAC macAddr = some hw → getRAddr ip = .ok r → getPort port = .ok q →
      net.dialErr = some t →
      sendMagic net macAddr [] ip port =
        (.error (.sendUDPStage (.dialUDP (.osNetErr t))), [.dial r q])) ∧
    (∀ hw r q t, parseMAC macAddr = some hw → getRAddr ip = .ok r → getPort port = .ok q →
      net.dialErr = none → net.writeErr = some t →
      (sendMagic net macAddr [] ip port).1 =
        .error (.sendUDPStage (.writeUDP (.osNetErr t)))) ∧
    ((sendMagic net macAddr [] ip port).1 = .ok () ↔
      ∃ hw r q, parseMAC macAddr = some hw ∧ getRAddr ip = .ok r ∧ getPort port = .ok q ∧
        net.dialErr = none ∧ net.writeErr = none) ∧
    ((parseMAC macAddr = none ∨ (∃ e, getRAddr ip = .error e) ∨
        (∃ e, getPort port = .error e)) →
      ∀ pl, NetEvent.write pl ∉ (sendMagic net macAddr [] ip port).2) := by
  refine ⟨?_, ?_, ?_, ?_, ?_, ?_, ?_⟩
  · exact fun h => sendMagic_eq_macfail net macAddr ip port h
  · intro hw e hmac hipe
    rw [sendMagic_eq_send net macAddr ip port hw hmac,
      sendUDP_eq_addrfail net _ ip port e hipe]
  · intro hw r e hmac hipo hpe
    rw [sendMagic_eq_send net macAddr ip port hw hmac,
      sendUDP_eq_portfail net _ ip port r e hipo hpe]
  · intro hw r q t hmac hipo hq hd
    rw [sendMagic_eq_send net macAddr ip port hw hmac,
      sendUDP_eq_dialfail net _ ip port r q t hipo hq hd]
  · intro hw r q t hmac hipo hq hd hwr
    rw [sendMagic_eq_send net macAddr ip port hw hmac,
      sendUDP_eq_writefail net _ ip port r q t hipo hq hd hwr]
  · constructor
    · intro h
      cases hmac : parseMAC macAddr with
      | none =>
        rw [sendMagic_eq_macfail net macAddr ip port hmac] at h
        simp at h
      | some hw =>
        cases hipr : getRAddr ip with
        | error e =>
          rw [sendMagic_eq_send net macAddr ip port hw hmac,
            sendUDP_eq_addrfail net _ ip port e hipr] at h
          simp at h
        | ok r =>
          cases hq : getPort port with
          | error e =>
            rw [sendMagic_eq_send net macAddr ip port hw hmac,
              sendUDP_eq_portfail net _ ip port r e hipr hq] at h
            simp at h
          | ok q =>
            rcases hd : net.dialErr with _ | t
            · rcases hwr : net.writeErr with _ | t2
              · exact ⟨hw, r, q, rfl, rfl, rfl, rfl, rfl⟩
              · rw [sendMagic_eq_send net macAddr ip port hw hmac,
                  sendUDP_eq_writefail net _ ip port r q t2 hipr hq hd hwr] at h
                simp at h
            · rw [sendMagic_eq_send net macAddr ip port hw hmac,
                sendUDP_eq_dialfail net _ ip port r q t hipr hq hd] at h
              simp at h
    · rintro ⟨hw, r, q, hmac, hipr, hq, hd, hwr⟩
      rw [sendMagic_eq_send net macAddr ip port hw hmac,
        sendUDP_eq_ok net _ ip port r q hipr hq hd hwr]
  · intro hfail pl
    cases hmac : parseMAC macAddr with
    | none =>
      rw [sendMagic_eq_macfail net macAddr ip port hmac]
      simp
    | some hw =>
      cases hipr : getRAddr ip with
      | error e =>
        rw [sendMagic_eq_send net macAddr ip port hw hmac,
          sendUDP_eq_addrfail net _ ip port e hipr]
        simp
      | ok r =>
        cases hq : getPort port with
        | error e =>
          rw [sendMagic_eq_send net macAddr ip port hw hmac,
            sendUDP_eq_portfail net _ ip port r e hipr hq]
          simp
        | ok q =>
          rcases hfail with h | ⟨e, h⟩ | ⟨e, h⟩
          · rw [hmac] at h
            exact absurd h (by simp)
          · rw [hipr] at h
            exact absurd h (by simp)
          · rw [hq] at h
            exact absurd h (by simp)

theorem sendMagic_error_propagation_witness :
    sendMagic ⟨none, none⟩ "bad".data [] "".data "".data =
      (.error (.writeMACStage (.invalidMAC "bad".data (.parseMACFail "bad".data))), []) :=
  (sendMagic_error_propagation ⟨none, none⟩ "bad".data "".data "".data).1 (by decide)

theorem joinSep_singleton (sep : Char) (g : List Char) : joinSep sep [g] = g := rfl

theorem joinSep_cons₂ (sep : Char) (g g2 : List Char) (gs : List (List Char)) :
    joinSep sep (g :: g2 :: gs) = g ++ sep :: joinSep sep (g2 :: gs) := rfl

theorem joinSep_length_add_one (sep : Char) (w : Nat) :
    ∀ gs : List (List Char), gs ≠ [] → (∀ g ∈ gs, g.length = w) →
      (joinSep sep gs).length + 1 = (w + 1) * gs.length := by
  intro gs
  induction gs with
  | nil => exact fun h => absurd rfl h
  | cons g gs ih =>
    intro _ hall
    cases gs with
    | nil => simp [joinSep_singleton, hall g (List.mem_cons_self g _)]
    | cons g2 gs2 =>
      have ih2 : (joinSep sep (g2 :: gs2)).length + 1 = (w + 1) * (g2 :: gs2).length :=
        ih (by simp) (fun x hx => hall x (List.mem_cons_of_mem g hx))
      rw [joinSep_cons₂, List.length_append, List.length_cons,
        List.length_cons, List.length_cons]
      rw [List.length_cons] at ih2
      have hg : g.length = w := hall g (List.mem_cons_self g _)
      have hm : (w + 1) * (gs2.length + 1 + 1) = (w + 1) * (gs2.length + 1) + (w + 1) := by
        ring
      rw [hm, ← ih2, hg]
      omega

theorem hexPair_cons (c1 c2 : Char) (h1 : isHexGo c1 = true) (h2 : isHexGo c2 = true) :
    HexPair [c1, c2] := by
  refine ⟨rfl, ?_⟩
  intro c hc
  rcases List.mem_cons.mp hc with h | h
  · subst h
    exact h1
  · rw [List.mem_singleton] at h
    subst h
    exact h2

theorem hexPair_elim {g : List Char} (h : HexPair g) :
    ∃ c1 c2, g = [c1, c2] ∧ isHexGo c1 = true ∧ isHexGo c2 = true := by
  obtain ⟨hl, hall⟩ := h
  match g, hl with
  | [c1, c2], _ =>
    exact ⟨c1, c2, rfl, hall c1 (by simp), hall c2 (by simp)⟩

theorem hexQuad_cons (c1 c2 c3 c4 : Char) (h1 : isHexGo c1 = true) (h2 : isHexGo c2 = true)
    (h3 : isHexGo c3 = true) (h4 : isHexGo c4 = true) : HexQuad [c1, c2, c3, c4] := by
  refine ⟨rfl, ?_⟩
  intro c hc
  simp only [List.mem_cons, List.mem_singleton, List.not_mem_nil, or_false] at hc
  rcases hc with h | h | h | h <;> subst h <;> assumption

theorem hexQuad_elim {g : List Char} (h : HexQuad g) :
    ∃ c1 c2 c3 c4, g = [c1, c2, c3, c4] ∧ isHexGo c1 = true ∧ isHexGo c2 = true ∧
      isHexGo c3 = true ∧ isHexGo c4 = true := by
  obtain ⟨hl, hall⟩ := h
  match g, hl with
  | [c1, c2, c3, c4], _ =>
    exact ⟨c1, c2, c3, c4, rfl, hall c1 (by simp), hall c2 (by simp), hall c3 (by simp),
      hall c4 (by simp)⟩

/-- Soundness of the colon/hyphen group loop: a successful parse decomposes
the input into `n` hex-pair groups joined by the separator. -/
theorem parseGroups_sound (sep : Char) (n : Nat) (l : List Char) :
    ∀ bs : List Nat, parseGroups sep n l = some bs →
      ∃ gs : List (List Char), gs.length = n ∧ (∀ g ∈ gs, HexPair g) ∧
        l = joinSep sep gs ∧ bs = gs.map pairVal := by
  induction n, l using parseGroups.induct sep with
  | case1 c1 c2 hhex =>
    intro bs hp
    simp only [parseGroups, hhex, if_true] at hp
    rw [Bool.and_eq_true] at hhex
    refine ⟨[[c1, c2]], rfl, ?_, rfl, ?_⟩
    · intro g hg
      rw [List.mem_singleton] at hg
      subst hg
      exact hexPair_cons c1 c2 hhex.1 hhex.2
    · rw [← Option.some.inj hp]
      rfl
  | case2 c1 c2 hhex =>
    intro bs hp
    simp [parseGroups, hhex] at hp
  | case3 n c1 c2 rest hhex ih =>
    intro bs hp
    simp only [parseGroups, hhex, if_true, if_pos rfl] at hp
    rw [Option.map_eq_some'] at hp
    obtain ⟨bs', hrec, hbs⟩ := hp
    obtain ⟨gs', hlen, hhx, hjoin, hval⟩ := ih bs' hrec
    rw [Bool.and_eq_true] at hhex
    cases gs' with
    | nil => simp at hlen
    | cons g0 gs0 =>
      refine ⟨[c1, c2] :: g0 :: gs0, ?_, ?_, ?_, ?_⟩
      · rw [List.length_cons, hlen]
      · intro g hg
        rcases List.mem_cons.mp hg with h | h
        · subst h
          exact hexPair_cons c1 c2 hhex.1 hhex.2
        · exact hhx g h
      · rw [joinSep_cons₂, ← hjoin]
        rfl
      · rw [← hbs, hval]
        rfl
  | case4 n c1 c2 d rest hhex hned =>
    intro bs hp
    simp [parseGroups, hhex, hned] at hp
  | case5 n c1 c2 d rest hhex =>
    intro bs hp
    simp [parseGroups, hhex] at hp
  | case6 n l ha hb =>
    intro bs hp
    have hnone : parseGroups sep n l = none := by
      rw [parseGroups.eq_def]
      split
      · exact (ha _ _ rfl rfl).elim
      · exact (hb _ _ _ _ _ rfl rfl).elim
      · rfl
    rw [hnone] at hp
    exact absurd hp (by simp)

/-- Completeness of the colon/hyphen group loop: every join of hex-pair
groups parses to the list of their byte values. -/
theorem parseGroups_complete (sep : Char) :
    ∀ gs : List (List Char), gs ≠ [] → (∀ g ∈ gs, HexPair g) →
      parseGroups sep gs.length (joinSep sep gs) = some (gs.map pairVal) := by
  intro gs
  induction gs with
  | nil => exact fun h => absurd rfl h
  | cons g gs ih =>
    intro _ hall
    obtain ⟨c1, c2, hg, h1, h2⟩ := hexPair_elim (hall g (List.mem_cons_self g _))
    subst hg
    cases gs with
    | nil => simp [joinSep_singleton, parseGroups, h1, h2, pairVal]
    | cons g2 gs2 =>
      have ihrec := ih (by simp) (fun x hx => hall x (List.mem_cons_of_mem _ hx))
      rw [List.length_cons] at ihrec
      rw [joinSep_cons₂]
      show parseGroups sep ((g2 :: gs2).length + 1)
        (c1 :: c2 :: sep :: joinSep sep (g2 :: gs2)) = _
      rw [List.length_cons]
      simp only [parseGroups, h1, h2, Bool.and_self, if_true, if_pos rfl, ihrec,
        Option.map_some']
      simp [pairVal]

/-- Soundness of the dot group loop: a successful parse decomposes the input
into `n` hex-quad groups joined by dots. -/
theorem parseDotGroups_sound (n : Nat) (l : List Char) :
    ∀ bs : List Nat, parseDotGroups n l = some bs →
      ∃ gs : List (List Char), gs.length = n ∧ (∀ g ∈ gs, HexQuad g) ∧
        l = joinSep '.' gs ∧ bs = (gs.map quadVal).flatten := by
  induction n, l using parseDotGroups.induct with
  | case1 c1 c2 c3 c4 hhex =>
    intro bs hp
    simp only [parseDotGroups, hhex, if_true] at hp
    simp only [Bool.and_eq_true] at hhex
    refine ⟨[[c1, c2, c3, c4]], rfl, ?_, rfl, ?_⟩
    · intro g hg
      rw [List.mem_singleton] at hg
      subst hg
      exact hexQuad_cons c1 c2 c3 c4 hhex.1.1.1 hhex.1.1.2 hhex.1.2 hhex.2
    · rw [← Option.some.inj hp]
      rfl
  | case2 c1 c2 c3 c4 hhex =>
    intro bs hp
    simp [parseDotGroups, hhex] at hp
  | case3 n c1 c2 c3 c4 rest hhex ih =>
    intro bs hp
    simp only [parseDotGroups, hhex, if_true, if_pos rfl] at hp
    rw [Option.map_eq_some'] at hp
    obtain ⟨bs', hrec, hbs⟩ := hp
    obtain ⟨gs', hlen, hhx, hjoin, hval⟩ := ih bs' hrec
    simp only [Bool.and_eq_true] at hhex
    cases gs' with
    | nil => simp at hlen
    | cons g0 gs0 =>
      refine ⟨[c1, c2, c3, c4] :: g0 :: gs0, ?_, ?_, ?_, ?_⟩
      · rw [List.length_cons, hlen]
      · intro g hg
        rcases List.mem_cons.mp hg with h | h
        · subst h
          exact hexQuad_cons c1 c2 c3 c4 hhex.1.1.1 hhex.1.1.2 hhex.1.2 hhex.2
        · exact hhx g h
      · rw [joinSep_cons₂, ← hjoin]
        rfl
      · rw [← hbs, hval]
        rfl
  | case4 n c1 c2 c3 c4 d rest hhex hned =>
    intro bs hp
    simp [parseDotGroups, hhex, hned] at hp
  | case5 n c1 c2 c3 c4 d rest hhex =>
    intro bs hp
    simp [parseDotGroups, hhex] at hp
  | case6 n l ha hb =>
    intro bs hp
    have hnone : parseDotGroups n l = none := by
      rw [parseDotGroups.eq_def]
      split
      · exact (ha _ _ _ _ rfl rfl).elim
      · exact (hb _ _ _ _ _ _ _ rfl rfl).elim
      · rfl
    rw [hnone] at hp
    exact absurd hp (by simp)

/-- Completeness of the dot group loop. -/
theorem parseDotGroups_complete :
    ∀ gs : List (List Char), gs ≠ [] → (∀ g ∈ gs, HexQuad g) →
      parseDotGroups gs.length (joinSep '.' gs) = some ((gs.map quadVal).flatten) := by
  intro gs
  induction gs with
  | nil => exact fun h => absurd rfl h
  | cons g gs ih =>
    intro _ hall
    obtain ⟨c1, c2, c3, c4, hg, h1, h2, h3, h4⟩ := hexQuad_elim (hall g (List.mem_cons_self g _))
    subst hg
    cases gs with
    | nil => simp [joinSep_singleton, parseDotGroups, h1, h2, h3, h4, quadVal]
    | cons g2 gs2 =>
      have ihrec := ih (by simp) (fun x hx => hall x (List.mem_cons_of_mem _ hx))
      rw [List.length_cons] at ihrec
      rw [joinSep_cons₂]
      show parseDotGroups ((g2 :: gs2).length + 1)
        (c1 :: c2 :: c3 :: c4 :: '.' :: joinSep '.' (g2 :: gs2)) = _
      rw [List.length_cons]
      simp only [parseDotGroups, h1, h2, h3, h4, Bool.and_self, if_true, if_pos rfl, ihrec,
        Option.map_some']
      simp [quadVal]

theorem isHexGo_ne_colon_hyphen {c : Char} (h : isHexGo c = true) :
    (c = ':' || c = '-') = false := by
  have h1 : c ≠ ':' := by rintro rfl; exact absurd h (by decide)
  have h2 : c ≠ '-' := by rintro rfl; exact absurd h (by decide)
  simp [h1, h2]

/-- Every string accepted by `parseMAC` is in one of the two grammars. -/
theorem parseMAC_sound (s : List Char) (bs : List Nat) (hp : parseMAC s = some bs) :
    MACShapeColon s ∨ MACShapeDot s := by
  unfold parseMAC at hp
  by_cases hlen : s.length < 14
  · rw [if_pos hlen] at hp
    exact absurd hp (by simp)
  · rw [if_neg hlen] at hp
    cases h2 : s[2]? with
    | none =>
      rw [h2] at hp
      exact absurd hp (by simp)
    | some c =>
      rw [h2] at hp
      simp only [] at hp
      by_cases hc : (c = ':' || c = '-') = true
      · rw [if_pos hc] at hp
        by_cases h3 : (s.length + 1) % 3 = 0
        · rw [if_pos h3] at hp
          by_cases h6 : ((s.length + 1) / 3 = 6 || (s.length + 1) / 3 = 8 ||
              (s.length + 1) / 3 = 20) = true
          · rw [if_pos h6] at hp
            obtain ⟨gs, hglen, hgall, hgjoin, _⟩ := parseGroups_sound c _ s bs hp
            left
            refine ⟨c, gs, ?_, ?_, hgall, hgjoin⟩
            · simpa using hc
            · rw [hglen]
              simpa [or_assoc] using h6
          · rw [if_neg h6] at hp
            exact absurd hp (by simp)
        · rw [if_neg h3] at hp
          exact absurd hp (by simp)
      · rw [if_neg hc] at hp
        by_cases h4 : s[4]? = some '.'
        · rw [if_pos h4] at hp
          by_cases h5 : (s.length + 1) % 5 = 0
          · rw [if_pos h5] at hp
            by_cases h6 : (2 * (s.length + 1) / 5 = 6 || 2 * (s.length + 1) / 5 = 8 ||
                2 * (s.length + 1) / 5 = 20) = true
            · rw [if_pos h6] at hp
              obtain ⟨gs, hglen, hgall, hgjoin, _⟩ := parseDotGroups_sound _ s bs hp
              right
              refine ⟨gs, ?_, hgall, hgjoin⟩
              rw [hglen]
              rcases (by simpa [or_assoc] using h6 : 2 * (s.length + 1) / 5 = 6 ∨
                  2 * (s.length + 1) / 5 = 8 ∨ 2 * (s.length + 1) / 5 = 20) with h | h | h <;>
                rw [h] <;> simp
            · rw [if_neg h6] at hp
              exact absurd hp (by simp)
          · rw [if_neg h5] at hp
            exact absurd hp (by simp)
        · rw [if_neg h4] at hp
          exact absurd hp (by simp)

/-- Every string of the colon/hyphen grammar is accepted by `parseMAC`. -/
theorem parseMAC_complete_colon (s : List Char) (h : MACShapeColon s) :
    ∃ bs, parseMAC s = some bs := by
  obtain ⟨sep, gs, hsep, hn, hall, rfl⟩ := h
  have hw : ∀ g ∈ gs, g.length = 2 := fun g hg => (hall g hg).1
  have hne : gs ≠ [] := by
    intro he
    rw [he] at hn
    simp at hn
  have hlen : (joinSep sep gs).length + 1 = 3 * gs.length := by
    simpa using joinSep_length_add_one sep 2 gs hne hw
  have hlen14 : ¬ ((joinSep sep gs).length < 14) := by omega
  have hdiv : ((joinSep sep gs).length + 1) / 3 = gs.length := by
    rw [hlen]
    exact Nat.mul_div_cancel_left gs.length (by norm_num)
  have hmod : ((joinSep sep gs).length + 1) % 3 = 0 := by
    rw [hlen]
    exact Nat.mul_mod_right 3 gs.length
  obtain ⟨g, g2, gs2, rfl⟩ : ∃ g g2 gs2, gs = g :: g2 :: gs2 := by
    cases gs with
    | nil => simp at hn
    | cons g t =>
      cases t with
      | nil => simp at hn
      | cons g2 gs2 => exact ⟨g, g2, gs2, rfl⟩
  obtain ⟨c1, c2, hg, hx1, hx2⟩ := hexPair_elim (hall g (List.mem_cons_self g _))
  subst hg
  have hjoin : joinSep sep ([c1, c2] :: g2 :: gs2) =
      c1 :: c2 :: sep :: joinSep sep (g2 :: gs2) := rfl
  have h2 : (joinSep sep ([c1, c2] :: g2 :: gs2))[2]? = some sep := by
    rw [hjoin]
    simp
  have hca : (sep = ':' || sep = '-') = true := by
    rcases hsep with h | h <;> simp [h]
  refine ⟨([c1, c2] :: g2 :: gs2).map pairVal, ?_⟩
  unfold parseMAC
  rw [if_neg hlen14, h2]
  simp only []
  rw [if_pos hca, if_pos hmod, hdiv, if_pos (by simpa [or_assoc] using hn)]
  exact parseGroups_complete sep ([c1, c2] :: g2 :: gs2) hne hall

/-- Every string of the dot grammar is accepted by `parseMAC`. -/
theorem parseMAC_complete_dot (s : List Char) (h : MACShapeDot s) :
    ∃ bs, parseMAC s = some bs := by
  obtain ⟨gs, hn, hall, rfl⟩ := h
  have hw : ∀ g ∈ gs, g.length = 4 := fun g hg => (hall g hg).1
  have hne : gs ≠ [] := by
    intro he
    rw [he] at hn
    simp at hn
  have hlen : (joinSep '.' gs).length + 1 = 5 * gs.length := by
    simpa using joinSep_length_add_one '.' 4 gs hne hw
  have hlen14 : ¬ ((joinSep '.' gs).length < 14) := by omega
  have hmod : ((joinSep '.' gs).length + 1) % 5 = 0 := by
    rw [hlen]
    exact Nat.mul_mod_right 5 gs.length
  have hdiv : 2 * ((joinSep '.' gs).length + 1) / 5 = 2 * gs.length := by
    rw [hlen, ← Nat.mul_assoc]
    rw [Nat.mul_comm 2 5, Nat.mul_assoc]
    exact Nat.mul_div_cancel_left (2 * gs.length) (by norm_num)
  obtain ⟨g, g2, gs2, rfl⟩ : ∃ g g2 gs2, gs = g :: g2 :: gs2 := by
    cases gs with
    | nil => simp at hn
    | cons g t =>
      cases t with
      | nil => simp at hn
      | cons g2 gs2 => exact ⟨g, g2, gs2, rfl⟩
  obtain ⟨c1, c2, c3, c4, hg, hx1, hx2, hx3, hx4⟩ :=
    hexQuad_elim (hall g (List.mem_cons_self g _))
  subst hg
  have hjoin : joinSep '.' ([c1, c2, c3, c4] :: g2 :: gs2) =
      c1 :: c2 :: c3 :: c4 :: '.' :: joinSep '.' (g2 :: gs2) := rfl
  have h2 : (joinSep '.' ([c1, c2, c3, c4] :: g2 :: gs2))[2]? = some c3 := by
    rw [hjoin]
    simp
  have h4 : (joinSep '.' ([c1, c2, c3, c4] :: g2 :: gs2))[4]? = some '.' := by
    rw [hjoin]
    simp
  refine ⟨(([c1, c2, c3, c4] :: g2 :: gs2).map quadVal).flatten, ?_⟩
  unfold parseMAC
  rw [if_neg hlen14, h2]
  simp only []
  rw [if_neg (by simp [isHexGo_ne_colon_hyphen hx3]), if_pos h4, if_pos hmod, hdiv,
    Nat.mul_div_cancel_left _ (by norm_num : (0 : Nat) < 2)]
  rw [if_pos (by rcases hn with h | h | h <;> rw [h] <;> simp)]
  exact parseDotGroups_complete ([c1, c2, c3, c4] :: g2 :: gs2) hne hall

/-- Characterisation: `parseMAC` accepts exactly the union of the two grammars. -/
theorem parseMAC_isSome_iff (s : List Char) :
    (∃ bs, parseMAC s = some bs) ↔ MACShapeColon s ∨ MACShapeDot s := by
  constructor
  · rintro ⟨bs, hp⟩
    exact parseMAC_sound s bs hp
  · rintro (h | h)
    · exact parseMAC_complete_colon s h
    · exact parseMAC_complete_dot s h

/-- C2 counterexample: `WriteMAC` (via `net.ParseMAC`) accepts MAC strings
outside the claimed colon/hyphen 6-octet grammar — the dot-separated
`0123.4567.89ab` and the 8-octet colon form `00:11:22:33:44:55:66:77`
(the latter appending 16 copies of 8 octets, 128 bytes). -/
theorem writeMAC_beyond_claimed_grammar :
    (writeMAC [] "0123.4567.89ab".data).1 = none ∧
    (writeMAC [] "00:11:22:33:44:55:66:77".data).1 = none ∧
    (writeMAC [] "00:11:22:33:44:55:66:77".data).2.length = 128 := by
  refine ⟨by decide, by decide, by decide⟩

/-- C2 (amended): `WriteMAC` succeeds exactly on the strings `net.ParseMAC`
accepts — colon- or hyphen-delimited hex pairs with a uniform separator, or
dot-delimited four-hex-digit groups, encoding 6, 8 or 20 octets; every other
input is rejected with an error carrying the offending input string and leaves
the buffer unchanged; all-zero and all-`0xFF` addresses in the accepted shapes
succeed. -/
theorem writeMAC_accepts_iff (p : Payload) (addr : List Char) :
    ((writeMAC p addr).1 = none ↔ MACShapeColon addr ∨ MACShapeDot addr) ∧
    ((writeMAC p addr).1 ≠ none →
      writeMAC p addr = (some (.invalidMAC addr (.parseMACFail addr)), p)) ∧
    (writeMAC [] "00:00:00:00:00:00".data).1 = none ∧
    (writeMAC [] "ff:ff:ff:ff:ff:ff".data).1 = none ∧
    (writeMAC [] "ff-ff-ff-ff-ff-ff".data).1 = none := by
  refine ⟨?_, ?_, by decide, by decide, by decide⟩
  · rw [← parseMAC_isSome_iff]
    unfold writeMAC
    cases h : parseMAC addr with
    | none => simp
    | some hw => simp
  · intro hne
    unfold writeMAC
    cases h : parseMAC addr with
    | none => rfl
    | some hw =>
      unfold writeMAC at hne
      rw [h] at hne
      simp at hne

theorem writeMAC_accepts_iff_witness :
    MACShapeColon "00:11:22:33:44:55".data ∨ MACShapeDot "00:11:22:33:44:55".data :=
  (writeMAC_accepts_iff [] "00:11:22:33:44:55".data).1.mp (by decide)

theorem digit_toNat_bounds {a : Char} (h : isDigitGo a = true) :
    48 ≤ a.toNat ∧ a.toNat ≤ 57 := by
  simp only [isDigitGo, Bool.and_eq_true, decide_eq_true_eq, Char.le_def] at h
  exact h

theorem char_eq_of_toNat_eq {a b : Char} (h : a.toNat = b.toNat) : a = b :=
  Char.ext (UInt32.toNat.inj h)

theorem digit_val_ne_zero {a : Char} (hd : isDigitGo a = true) (hne : a ≠ '0') :
    a.toNat - '0'.toNat ≠ 0 := by
  intro h0
  obtain ⟨h1, _⟩ := digit_toNat_bounds hd
  have hz : '0'.toNat = 48 := rfl
  rw [hz] at h0
  have h48 : a.toNat = 48 := by omega
  exact hne (char_eq_of_toNat_eq (by rw [h48, hz]))

/-- One digit step of the IPv4 field loop. -/
theorem parseIPv4Fields_step_digit (c : Char) (rest : List Char) (val digLen : Nat)
    (fields : List Nat) (hc : isDigitGo c = true) (hlz : ¬(digLen = 1 ∧ val = 0))
    (hv : val * 10 + (c.toNat - '0'.toNat) ≤ 255) :
    parseIPv4Fields (c :: rest) val digLen fields =
      parseIPv4Fields rest (val * 10 + (c.toNat - '0'.toNat)) (digLen + 1) fields := by
  simp only [parseIPv4Fields]
  rw [if_pos hc, if_neg ?hlzb, if_neg (by omega)]
  case hlzb =>
    simp only [Bool.and_eq_true, decide_eq_true_eq]
    exact hlz

/-- One dot step of the IPv4 field loop. -/
theorem parseIPv4Fields_step_dot (rest : List Char) (val digLen : Nat)
    (fields : List Nat) (hdl : digLen ≠ 0) (hrest : rest ≠ []) (hflen : fields.length ≠ 3) :
    parseIPv4Fields ('.' :: rest) val digLen fields =
      parseIPv4Fields rest 0 0 (fields ++ [val]) := by
  simp only [parseIPv4Fields]
  rw [if_neg (by decide)]
  simp only [if_true]
  rw [if_neg ?hzb, if_neg hflen]
  case hzb =>
    simp only [Bool.or_eq_true, decide_eq_true_eq, not_or]
    exact ⟨hdl, hrest⟩

/-- End-of-input step of the IPv4 field loop with three fields stored. -/
theorem parseIPv4Fields_step_end (val digLen : Nat) (fields : List Nat)
    (h3 : fields.length = 3) :
    parseIPv4Fields [] val digLen fields = some (fields ++ [val]) := by
  simp only [parseIPv4Fields]
  rw [if_neg (by omega)]

/-- Inversion of one step of the IPv4 field loop. -/
theorem parseIPv4Fields_inv (c : Char) (rest : List Char) (val digLen : Nat)
    (fields : List Nat) (bs : List Nat)
    (hp : parseIPv4Fields (c :: rest) val digLen fields = some bs) :
    (isDigitGo c = true ∧ ¬(digLen = 1 ∧ val = 0) ∧
      val * 10 + (c.toNat - '0'.toNat) ≤ 255 ∧
      parseIPv4Fields rest (val * 10 + (c.toNat - '0'.toNat)) (digLen + 1) fields = some bs) ∨
    (c = '.' ∧ digLen ≠ 0 ∧ rest ≠ [] ∧ fields.length ≠ 3 ∧
      parseIPv4Fields rest 0 0 (fields ++ [val]) = some bs) := by
  simp only [parseIPv4Fields] at hp
  by_cases hd : isDigitGo c = true
  · rw [if_pos hd] at hp
    by_cases hlz : (decide (digLen = 1) && decide (val = 0)) = true
    · rw [if_pos hlz] at hp
      exact absurd hp (by simp)
    · rw [if_neg hlz] at hp
      by_cases hv : 255 < val * 10 + (c.toNat - '0'.toNat)
      · rw [if_pos hv] at hp
        exact absurd hp (by simp)
      · rw [if_neg hv] at hp
        left
        refine ⟨hd, ?_, by omega, hp⟩
        intro h
        exact hlz (by simp [h.1, h.2])
  · rw [if_neg hd] at hp
    by_cases hdot : c = '.'
    · rw [if_pos hdot] at hp
      by_cases hz : (decide (digLen = 0) || decide (rest = [])) = true
      · rw [if_pos hz] at hp
        exact absurd hp (by simp)
      · rw [if_neg hz] at hp
        by_cases hf : fields.length = 3
        · rw [if_pos hf] at hp
          exact absurd hp (by simp)
        · rw [if_neg hf] at hp
          right
          simp only [Bool.or_eq_true, decide_eq_true_eq, not_or] at hz
          exact ⟨hdot, hz.1, hz.2, hf, hp⟩
    · rw [if_neg hdot] at hp
      exact absurd hp (by simp)

/-- Scanning one complete octet field followed by a dot. -/
theorem parseIPv4Fields_field_dot (f : List Char) (rest : List Char) (fields : List Nat)
    (hoct : OctetShape f) (hrest : rest ≠ []) (hflen : fields.length < 3) :
    parseIPv4Fields (f ++ '.' :: rest) 0 0 fields =
      parseIPv4Fields rest 0 0 (fields ++ [decVal f]) := by
  obtain ⟨hne, hlen3, hdig, hlz, hval⟩ := hoct
  match f, hne, hlen3 with
  | [a], _, _ =>
    have ha := hdig a (by simp)
    have hva : (0 : Nat) * 10 + (a.toNat - '0'.toNat) ≤ 255 := hval
    rw [show ([a] ++ '.' :: rest : List Char) = a :: '.' :: rest from rfl,
      parseIPv4Fields_step_digit a ('.' :: rest) 0 0 fields ha (by simp) hva,
      parseIPv4Fields_step_dot rest _ 1 fields (by omega) hrest (by omega)]
    rfl
  | [a, b], _, _ =>
    have ha := hdig a (by simp)
    have hb := hdig b (by simp)
    have ha0 : a ≠ '0' := by
      have h := hlz (by norm_num)
      simp only [List.head?_cons, ne_eq, Option.some.injEq] at h
      exact h
    have hvne := digit_val_ne_zero ha ha0
    have hval2 : ((0 : Nat) * 10 + (a.toNat - '0'.toNat)) * 10 + (b.toNat - '0'.toNat) ≤ 255 :=
      hval
    rw [show ([a, b] ++ '.' :: rest : List Char) = a :: b :: '.' :: rest from rfl,
      parseIPv4Fields_step_digit a (b :: '.' :: rest) 0 0 fields ha (by simp) (by omega),
      parseIPv4Fields_step_digit b ('.' :: rest) _ 1 fields hb (fun h => hvne (by omega))
        (by omega),
      parseIPv4Fields_step_dot rest _ 2 fields (by omega) hrest (by omega)]
    rfl
  | [a, b, c], _, _ =>
    have ha := hdig a (by simp)
    have hb := hdig b (by simp)
    have hc := hdig c (by simp)
    have ha0 : a ≠ '0' := by
      have h := hlz (by norm_num)
      simp only [List.head?_cons, ne_eq, Option.some.injEq] at h
      exact h
    have hvne := digit_val_ne_zero ha ha0
    have hval3 : (((0 : Nat) * 10 + (a.toNat - '0'.toNat)) * 10 + (b.toNat - '0'.toNat)) * 10
        + (c.toNat - '0'.toNat) ≤ 255 := hval
    rw [show ([a, b, c] ++ '.' :: rest : List Char) = a :: b :: c :: '.' :: rest from rfl,
      parseIPv4Fields_step_digit a (b :: c :: '.' :: rest) 0 0 fields ha (by simp) (by omega),
      parseIPv4Fields_step_digit b (c :: '.' :: rest) _ 1 fields hb (fun h => hvne (by omega))
        (by omega),
      parseIPv4Fields_step_digit c ('.' :: rest) _ 2 fields hc (by omega) (by omega),
      parseIPv4Fields_step_dot rest _ 3 fields (by omega) hrest (by omega)]
    rfl

/-- Scanning the final octet field at the end of the input. -/
theorem parseIPv4Fields_field_last (f : List Char) (fields : List Nat)
    (hoct : OctetShape f) (hflen : fields.length = 3) :
    parseIPv4Fields f 0 0 fields = some (fields ++ [decVal f]) := by
  obtain ⟨hne, hlen3, hdig, hlz, hval⟩ := hoct
  match f, hne, hlen3 with
  | [a], _, _ =>
    have ha := hdig a (by simp)
    have hva : (0 : Nat) * 10 + (a.toNat - '0'.toNat) ≤ 255 := hval
    rw [show ([a] : List Char) = a :: [] from rfl,
      parseIPv4Fields_step_digit a [] 0 0 fields ha (by simp) hva,
      parseIPv4Fields_step_end _ 1 fields hflen]
    rfl
  | [a, b], _, _ =>
    have ha := hdig a (by simp)
    have hb := hdig b (by simp)
    have ha0 : a ≠ '0' := by
      have h := hlz (by norm_num)
      simp only [List.head?_cons, ne_eq, Option.some.injEq] at h
      exact h
    have hvne := digit_val_ne_zero ha ha0
    have hval2 : ((0 : Nat) * 10 + (a.toNat - '0'.toNat)) * 10 + (b.toNat - '0'.toNat) ≤ 255 :=
      hval
    rw [show ([a, b] : List Char) = a :: b :: [] from rfl,
      parseIPv4Fields_step_digit a [b] 0 0 fields ha (by simp) (by omega),
      parseIPv4Fields_step_digit b [] _ 1 fields hb (fun h => hvne (by omega)) (by omega),
      parseIPv4Fields_step_end _ 2 fields hflen]
    rfl
  | [a, b, c], _, _ =>
    have ha := hdig a (by simp)
    have hb := hdig b (by simp)
    have hc := hdig c (by simp)
    have ha0 : a ≠ '0' := by
      have h := hlz (by norm_num)
      simp only [List.head?_cons, ne_eq, Option.some.injEq] at h
      exact h
    have hvne := digit_val_ne_zero ha ha0
    have hval3 : (((0 : Nat) * 10 + (a.toNat - '0'.toNat)) * 10 + (b.toNat - '0'.toNat)) * 10
        + (c.toNat - '0'.toNat) ≤ 255 := hval
    rw [show ([a, b, c] : List Char) = a :: b :: c :: [] from rfl,
      parseIPv4Fields_step_digit a [b, c] 0 0 fields ha (by simp) (by omega),
      parseIPv4Fields_step_digit b [c] _ 1 fields hb (fun h => hvne (by omega)) (by omega),
      parseIPv4Fields_step_digit c [] _ 2 fields hc (by omega) (by omega),
      parseIPv4Fields_step_end _ 3 fields hflen]
    rfl

/-- Completeness: every strict dotted quad parses to its four octet values. -/
theorem parseIPv4_complete (fs : List (List Char)) (hlen : fs.length = 4)
    (hall : ∀ f ∈ fs, OctetShape f) :
    parseIPv4 (joinSep '.' fs) = some (fs.map decVal) := by
  match fs, hlen with
  | [f1, f2, f3, f4], _ =>
    have h1 := hall f1 (by simp)
    have h2 := hall f2 (by simp)
    have h3 := hall f3 (by simp)
    have h4 := hall f4 (by simp)
    have hjoin : joinSep '.' [f1, f2, f3, f4] =
        f1 ++ '.' :: (f2 ++ '.' :: (f3 ++ '.' :: f4)) := rfl
    unfold parseIPv4
    rw [hjoin,
      parseIPv4Fields_field_dot f1 _ [] h1 (by simp) (by simp),
      parseIPv4Fields_field_dot f2 _ _ h2 (by simp) (by simp),
      parseIPv4Fields_field_dot f3 _ _ h3 h4.1 (by simp),
      parseIPv4Fields_field_last f4 _ h4 (by simp)]
    simp

theorem octetShape_one (a : Char) (ha : isDigitGo a = true) : OctetShape [a] := by
  obtain ⟨h1, h2⟩ := digit_toNat_bounds ha
  refine ⟨by simp, by simp, ?_, by norm_num, ?_⟩
  · intro x hx
    rw [List.mem_singleton] at hx
    subst hx
    exact ha
  · show 0 * 10 + (a.toNat - '0'.toNat) ≤ 255
    have hz : '0'.toNat = 48 := rfl
    omega

theorem octetShape_two (a b : Char) (ha : isDigitGo a = true) (hb : isDigitGo b = true)
    (ha0 : 0 * 10 + (a.toNat - '0'.toNat) ≠ 0)
    (hv : (0 * 10 + (a.toNat - '0'.toNat)) * 10 + (b.toNat - '0'.toNat) ≤ 255) :
    OctetShape [a, b] := by
  refine ⟨by simp, by simp, ?_, ?_, hv⟩
  · intro x hx
    rcases List.mem_cons.mp hx with h | h
    · subst h
      exact ha
    · rw [List.mem_singleton] at h
      subst h
      exact hb
  · intro _
    simp only [List.head?_cons, ne_eq, Option.some.injEq]
    intro h
    subst h
    exact ha0 (by decide)

theorem octetShape_three (a b c : Char) (ha : isDigitGo a = true) (hb : isDigitGo b = true)
    (hc : isDigitGo c = true) (ha0 : 0 * 10 + (a.toNat - '0'.toNat) ≠ 0)
    (hv : ((0 * 10 + (a.toNat - '0'.toNat)) * 10 + (b.toNat - '0'.toNat)) * 10
      + (c.toNat - '0'.toNat) ≤ 255) :
    OctetShape [a, b, c] := by
  refine ⟨by simp, by simp, ?_, ?_, hv⟩
  · intro x hx
    rcases List.mem_cons.mp hx with h | h
    · subst h
      exact ha
    · rcases List.mem_cons.mp h with h2 | h2
      · subst h2
        exact hb
      · rw [List.mem_singleton] at h2
        subst h2
        exact hc
  · intro _
    simp only [List.head?_cons, ne_eq, Option.some.injEq]
    intro h
    subst h
    exact ha0 (by decide)

/-- Closing a field at the end of the input inside the soundness argument. -/
theorem parseIPv4Fields_sound_end (f : List Char) (fields bs : List Nat)
    (hoct : OctetShape f) (h3 : fields.length ≤ 3)
    (hp : parseIPv4Fields [] (decVal f) (f.length) fields = some bs) :
    ∃ fs : List (List Char), fs ≠ [] ∧ (∀ g ∈ fs, OctetShape g) ∧ f = joinSep '.' fs ∧
      fields.length + fs.length = 4 ∧ bs = fields ++ fs.map decVal := by
  simp only [parseIPv4Fields] at hp
  by_cases hf : fields.length < 3
  · rw [if_pos hf] at hp
    exact absurd hp (by simp)
  · rw [if_neg hf] at hp
    have hbs := Option.some.inj hp
    refine ⟨[f], by simp, ?_, rfl, by simp; omega, by rw [← hbs]; rfl⟩
    intro g hg
    rw [List.mem_singleton] at hg
    subst hg
    exact hoct

/-- Continuing past a field-terminating dot inside the soundness argument. -/
theorem parseIPv4Fields_sound_cont (n : Nat)
    (ihfun : ∀ (l : List Char) (fields bs : List Nat), l.length ≤ n → l ≠ [] →
      fields.length ≤ 3 → parseIPv4Fields l 0 0 fields = some bs →
      ∃ fs : List (List Char), fs ≠ [] ∧ (∀ g ∈ fs, OctetShape g) ∧ l = joinSep '.' fs ∧
        fields.length + fs.length = 4 ∧ bs = fields ++ fs.map decVal)
    (f t : List Char) (fields bs : List Nat) (hoct : OctetShape f)
    (hp : parseIPv4Fields t 0 0 (fields ++ [decVal f]) = some bs)
    (htne : t ≠ []) (htlen : t.length ≤ n) (hflen : fields.length ≤ 2) :
    ∃ fs : List (List Char), fs ≠ [] ∧ (∀ g ∈ fs, OctetShape g) ∧
      f ++ '.' :: t = joinSep '.' fs ∧ fields.length + fs.length = 4 ∧
      bs = fields ++ fs.map decVal := by
  obtain ⟨fs2, hne2, hall2, hjoin2, hcnt2, hbs2⟩ :=
    ihfun t (fields ++ [decVal f]) bs htlen htne (by simp; omega) hp
  cases fs2 with
  | nil => exact absurd rfl hne2
  | cons g0 gs0 =>
    refine ⟨f :: g0 :: gs0, by simp, ?_, ?_, ?_, ?_⟩
    · intro g hg
      rcases List.mem_cons.mp hg with h | h
      · subst h
        exact hoct
      · exact hall2 g h
    · rw [joinSep_cons₂, ← hjoin2]
    · simp at hcnt2 ⊢
      omega
    · rw [hbs2]
      simp

/-- Soundness of the IPv4 field loop, by strong induction on the input length:
from a start-of-field state the loop succeeds only on a dot-joined list of
octet fields that completes `fields` to exactly four. -/
theorem parseIPv4Fields_sound :
    ∀ (N : Nat) (l : List Char) (fields bs : List Nat), l.length ≤ N → l ≠ [] →
      fields.length ≤ 3 → parseIPv4Fields l 0 0 fields = some bs →
      ∃ fs : List (List Char), fs ≠ [] ∧ (∀ f ∈ fs, OctetShape f) ∧ l = joinSep '.' fs ∧
        fields.length + fs.length = 4 ∧ bs = fields ++ fs.map decVal := by
  intro N
  induction N with
  | zero =>
    intro l fields bs hN hne _ _
    cases l with
    | nil => exact absurd rfl hne
    | cons c t => simp at hN
  | succ n ih =>
    intro l fields bs hN hne h3 hp
    cases l with
    | nil => exact absurd rfl hne
    | cons a t =>
      rcases parseIPv4Fields_inv a t 0 0 fields bs hp with
        ⟨ha, _, _, hp1⟩ | ⟨_, hdl, _, _, _⟩
      swap
      · exact absurd rfl hdl
      cases t with
      | nil =>
        exact parseIPv4Fields_sound_end [a] fields bs (octetShape_one a ha) h3 hp1
      | cons b t2 =>
        rcases parseIPv4Fields_inv b t2 _ 1 fields bs hp1 with
          ⟨hb, hlzb, hvb, hp2⟩ | ⟨hbdot, _, ht2ne, hf3, hp2⟩
        swap
        · -- a single-digit field followed by a dot
          subst hbdot
          rw [List.length_cons, List.length_cons] at hN
          exact parseIPv4Fields_sound_cont n ih [a] t2 fields bs (octetShape_one a ha) hp2
            ht2ne (by omega) (by omega)
        · have ha0 : 0 * 10 + (a.toNat - '0'.toNat) ≠ 0 := fun h => hlzb ⟨rfl, h⟩
          cases t2 with
          | nil =>
            exact parseIPv4Fields_sound_end [a, b] fields bs
              (octetShape_two a b ha hb ha0 hvb) h3 hp2
          | cons c t3 =>
            rcases parseIPv4Fields_inv c t3 _ 2 fields bs hp2 with
              ⟨hc, _, hvc, hp3⟩ | ⟨hcdot, _, ht3ne, hf3c, hp3⟩
            swap
            · -- a two-digit field followed by a dot
              subst hcdot
              rw [List.length_cons, List.length_cons, List.length_cons] at hN
              exact parseIPv4Fields_sound_cont n ih [a, b] t3 fields bs
                (octetShape_two a b ha hb ha0 hvb) hp3 ht3ne (by omega) (by omega)
            · cases t3 with
              | nil =>
                exact parseIPv4Fields_sound_end [a, b, c] fields bs
                  (octetShape_three a b c ha hb hc ha0 hvc) h3 hp3
              | cons d t4 =>
                rcases parseIPv4Fields_inv d t4 _ 3 fields bs hp3 with
                  ⟨_, _, hvd, _⟩ | ⟨hddot, _, ht4ne, hf3d, hp4⟩
                · -- a fourth digit would push the field value past 255
                  exfalso
                  have hz : '0'.toNat = 48 := rfl
                  rw [hz] at ha0 hvd
                  omega
                · -- a three-digit field followed by a dot
                  subst hddot
                  rw [List.length_cons, List.length_cons, List.length_cons,
                    List.length_cons] at hN
                  exact parseIPv4Fields_sound_cont n ih [a, b, c] t4 fields bs
                    (octetShape_three a b c ha hb hc ha0 hvc) hp4 ht4ne (by omega) (by omega)

/-- Characterisation: `parseIPv4` accepts exactly the strict dotted quads, producing the four
octet values. -/
theorem parseIPv4_iff (s : List Char) :
    (∃ bs, parseIPv4 s = some bs) ↔ IPv4Shape s := by
  constructor
  · rintro ⟨bs, hp⟩
    have hne : s ≠ [] := by
      intro he
      subst he
      simp [parseIPv4, parseIPv4Fields] at hp
    obtain ⟨fs, hne2, hall, hjoin, hcnt, _⟩ :=
      parseIPv4Fields_sound s.length s [] bs le_rfl hne (by simp) hp
    exact ⟨fs, by simpa using hcnt, hall, hjoin⟩
  · rintro ⟨fs, hlen, hall, rfl⟩
    exact ⟨fs.map decVal, parseIPv4_complete fs hlen hall⟩

theorem mem_joinSep {sep c : Char} :
    ∀ {gs : List (List Char)}, c ∈ joinSep sep gs → c = sep ∨ ∃ g ∈ gs, c ∈ g := by
  intro gs
  induction gs with
  | nil =>
    intro h
    simp [joinSep] at h
  | cons g gs ih =>
    intro h
    cases gs with
    | nil =>
      rw [joinSep_singleton] at h
      exact Or.inr ⟨g, by simp, h⟩
    | cons g2 gs2 =>
      rw [joinSep_cons₂] at h
      rcases List.mem_append.mp h with h | h
      · exact Or.inr ⟨g, by simp, h⟩
      · rcases List.mem_cons.mp h with h | h
        · exact Or.inl h
        · rcases ih h with h | ⟨g3, hg3, hcg3⟩
          · exact Or.inl h
          · exact Or.inr ⟨g3, List.mem_cons_of_mem _ hg3, hcg3⟩

theorem digit_ne_special {c : Char} (h : isDigitGo c = true) :
    ((c = '.' : Bool) || (c = ':' : Bool)) = false := by
  have h1 : c ≠ '.' := by
    rintro rfl
    exact absurd h (by decide)
  have h2 : c ≠ ':' := by
    rintro rfl
    exact absurd h (by decide)
  simp [h1, h2]

/-- A strict dotted quad contains no `%` and its first special character is a
dot, so `net.ParseIP` dispatches it to the IPv4 parser. -/
theorem dotted_quad_dispatch (fs : List (List Char)) (hlen : fs.length = 4)
    (hall : ∀ f ∈ fs, OctetShape f) :
    (joinSep '.' fs).contains '%' = false ∧
    (joinSep '.' fs).find? (fun c => c = '.' || c = ':') = some '.' := by
  constructor
  · rw [← Bool.not_eq_true, List.contains_iff_exists_mem_beq]
    rintro ⟨c, hc, hbeq⟩
    have hc2 : c = '%' := by
      have := eq_of_beq hbeq
      exact this.symm ▸ rfl
    subst hc2
    rcases mem_joinSep hc with h | ⟨g, hg, hcg⟩
    · exact absurd h (by decide)
    · have := (hall g hg).2.2.1 '%' hcg
      exact absurd this (by decide)
  · match fs, hlen with
    | f1 :: rest, hl =>
      have h1 := hall f1 (List.mem_cons_self f1 _)
      have hrest : rest ≠ [] := by
        intro he
        rw [he] at hl
        simp at hl
      have hjoin : joinSep '.' (f1 :: rest) = f1 ++ '.' :: joinSep '.' rest := by
        cases rest with
        | nil => exact absurd rfl hrest
        | cons g2 gs2 => exact joinSep_cons₂ '.' f1 g2 gs2
      rw [hjoin, List.find?_append]
      have hnone : f1.find? (fun c => c = '.' || c = ':') = none := by
        rw [List.find?_eq_none]
        intro c hcf
        simp only [Bool.or_eq_true, decide_eq_true_eq, not_or]
        have hd := h1.2.2.1 c hcf
        constructor
        · rintro rfl
          exact absurd hd (by decide)
        · rintro rfl
          exact absurd hd (by decide)
      rw [hnone, Option.none_or, List.find?_cons_of_pos _ (by decide)]

/-- C4 counterexample: `getRAddr` accepts the IPv6 literal `::1` (via
`net.ParseIP`) and returns it, instead of signalling an error for a non-IPv4
input. -/
theorem getRAddr_accepts_ipv6 :
    getRAddr "::1".data = .ok [0, 0, 0, 0, 0, 0, 0, 0, 0, 0, 0, 0, 0, 0, 0, 1] := rfl

/-- C4 (amended): `getRAddr` resolves the empty string to the broadcast
address `255.255.255.255`; a non-empty input is returned parsed exactly when
Go `net.ParseIP` accepts it — in particular every strict dotted-quad IPv4
literal is accepted with its four octet values, and for inputs dispatched to
the IPv4 parser acceptance is exactly the dotted-quad grammar — and every
other non-empty input, including malformed octets and hostnames, yields the
invalid-remote-address error carrying the input, never a substituted default;
IPv6 literals are accepted, not rejected. -/
theorem getRAddr_amended_spec :
    getRAddr [] = .ok (v4InV6 [255, 255, 255, 255]) ∧
    (∀ s ip, s ≠ [] → netParseIP s = some ip → getRAddr s = .ok ip) ∧
    (∀ s, s ≠ [] → netParseIP s = none → getRAddr s = .error (.invalidRemote s)) ∧
    (∀ fs : List (List Char), fs.length = 4 → (∀ f ∈ fs, OctetShape f) →
      getRAddr (joinSep '.' fs) = .ok (v4InV6 (fs.map decVal))) ∧
    (∀ s, s.contains '%' = false → s.find? (fun c => c = '.' || c = ':') = some '.' →
      ((∃ ip, getRAddr s = .ok ip) ↔ IPv4Shape s)) ∧
    getRAddr "999.1.1.1".data = .error (.invalidRemote "999.1.1.1".data) ∧
    getRAddr "wakehost".data = .error (.invalidRemote "wakehost".data) := by
  have hc4 : ∀ fs : List (List Char), fs.length = 4 → (∀ f ∈ fs, OctetShape f) →
      getRAddr (joinSep '.' fs) = .ok (v4InV6 (fs.map decVal)) := by
    intro fs hlen hall
    obtain ⟨hct, hfind⟩ := dotted_quad_dispatch fs hlen hall
    have hne : joinSep '.' fs ≠ [] := by
      intro he
      rw [he] at hfind
      simp at hfind
    have hnp : netParseIP (joinSep '.' fs) = some (v4InV6 (fs.map decVal)) := by
      unfold netParseIP
      rw [if_neg (by rw [hct]; simp), hfind]
      simp only [if_true]
      rw [parseIPv4_complete fs hlen hall]
      rfl
    unfold getRAddr
    rw [if_neg hne, hnp]
  refine ⟨rfl, ?_, ?_, hc4, ?_, rfl, rfl⟩
  · intro s ip hne hp
    unfold getRAddr
    rw [if_neg hne, hp]
  · intro s hne hp
    unfold getRAddr
    rw [if_neg hne, hp]
  · intro s hct hfind
    have hne : s ≠ [] := by
      rintro rfl
      simp at hfind
    constructor
    · rintro ⟨ip, hok⟩
      unfold getRAddr at hok
      rw [if_neg hne] at hok
      cases hnp : netParseIP s with
      | none =>
        rw [hnp] at hok
        exact absurd hok (by simp)
      | some ip2 =>
        unfold netParseIP at hnp
        rw [if_neg (by rw [hct]; simp), hfind] at hnp
        simp only [if_true] at hnp
        rw [Option.map_eq_some'] at hnp
        obtain ⟨bs, hbs, _⟩ := hnp
        exact (parseIPv4_iff s).mp ⟨bs, hbs⟩
    · rintro ⟨fs, hlen, hall, rfl⟩
      exact ⟨_, hc4 fs hlen hall⟩

theorem getRAddr_amended_spec_witness :
    getRAddr "1.2.3.4".data = .ok (v4InV6 [1, 2, 3, 4]) :=
  getRAddr_amended_spec.2.2.2.1 [['1'], ['2'], ['3'], ['4']] rfl (by decide)

theorem atoiDigits_ok_iff (s0 digits : List Char) (neg : Bool) (n : Int) :
    atoiDigits s0 digits neg = .ok n ↔
      digits ≠ [] ∧ (∀ c ∈ digits, isDigitGo c = true) ∧
      (neg = true ∧ n = -(decVal digits : Int) ∧ (decVal digits : Int) ≤ 2 ^ 63 ∨
       neg = false ∧ n = (decVal digits : Int) ∧ (decVal digits : Int) ≤ 2 ^ 63 - 1) := by
  unfold atoiDigits
  by_cases hd : digits = []
  · rw [if_pos hd]
    simp [hd]
  · rw [if_neg hd]
    by_cases hall : digits.all isDigitGo = true
    · rw [if_neg (by simp [hall])]
      have hall2 : ∀ c ∈ digits, isDigitGo c = true := by
        simpa [List.all_eq_true] using hall
      cases neg with
      | true =>
        rw [if_pos rfl]
        by_cases hr : 2 ^ 63 < decVal digits
        · rw [if_pos hr]
          constructor
          · intro h
            exact absurd h (by simp)
          · rintro ⟨_, _, ⟨_, _, hb⟩ | ⟨hfalse, _⟩⟩
            · exfalso
              omega
            · exact absurd hfalse (by simp)
        · rw [if_neg hr]
          constructor
          · intro h
            have hn := Except.ok.inj h
            exact ⟨hd, hall2, Or.inl ⟨rfl, hn.symm, by omega⟩⟩
          · rintro ⟨_, _, ⟨_, hn, _⟩ | ⟨hfalse, _⟩⟩
            · rw [hn]
            · exact absurd hfalse (by simp)
      | false =>
        rw [if_neg (by simp)]
        by_cases hr : 2 ^ 63 - 1 < decVal digits
        · rw [if_pos hr]
          constructor
          · intro h
            exact absurd h (by simp)
          · rintro ⟨_, _, ⟨hfalse, _⟩ | ⟨_, _, hb⟩⟩
            · exact absurd hfalse (by simp)
            · exfalso
              omega
        · rw [if_neg hr]
          constructor
          · intro h
            have hn := Except.ok.inj h
            exact ⟨hd, hall2, Or.inr ⟨rfl, hn.symm, by omega⟩⟩
          · rintro ⟨_, _, ⟨hfalse, _⟩ | ⟨_, hn, _⟩⟩
            · exact absurd hfalse (by simp)
            · rw [hn]
    · rw [if_pos (by simp [hall])]
      constructor
      · intro h
        exact absurd h (by simp)
      · rintro ⟨_, hall2, _⟩
        exact ((hall (by simpa [List.all_eq_true] using hall2))).elim

theorem digit_ne_sign {c : Char} (h : isDigitGo c = true) : c ≠ '-' ∧ c ≠ '+' := by
  constructor
  · rintro rfl
    exact absurd h (by decide)
  · rintro rfl
    exact absurd h (by decide)

/-- Characterisation: `strconv.Atoi` succeeds exactly on optionally-signed digit strings whose
value fits in `int64`, returning that value. -/
theorem atoi_ok_iff (s : List Char) (n : Int) :
    atoi s = .ok n ↔ IntShape s n ∧ -(2 ^ 63 : Int) ≤ n ∧ n ≤ 2 ^ 63 - 1 := by
  constructor
  · intro h
    unfold atoi at h
    cases s with
    | nil => exact absurd h (by simp)
    | cons c rest =>
      simp only [] at h
      by_cases h1 : c = '-'
      · rw [if_pos h1] at h
        rw [atoiDigits_ok_iff] at h
        obtain ⟨hne, hall, ⟨_, hn, hb⟩ | ⟨hfalse, _⟩⟩ := h
        · subst h1
          exact ⟨⟨rest, hne, hall, Or.inr ⟨rfl, hn⟩⟩, by omega, by omega⟩
        · exact absurd hfalse (by simp)
      · rw [if_neg h1] at h
        by_cases h2 : c = '+'
        · rw [if_pos h2] at h
          rw [atoiDigits_ok_iff] at h
          obtain ⟨hne, hall, ⟨hfalse, _⟩ | ⟨_, hn, hb⟩⟩ := h
          · exact absurd hfalse (by simp)
          · subst h2
            exact ⟨⟨rest, hne, hall, Or.inl ⟨Or.inr rfl, hn⟩⟩, by omega, by omega⟩
        · rw [if_neg h2] at h
          rw [atoiDigits_ok_iff] at h
          obtain ⟨hne, hall, ⟨hfalse, _⟩ | ⟨_, hn, hb⟩⟩ := h
          · exact absurd hfalse (by simp)
          · exact ⟨⟨c :: rest, hne, hall, Or.inl ⟨Or.inl rfl, hn⟩⟩, by omega, by omega⟩
  · rintro ⟨⟨d, hdne, hdall, hcase⟩, hb1, hb2⟩
    rcases hcase with ⟨hs | hs, hn⟩ | ⟨hs, hn⟩
    · subst hs
      unfold atoi
      cases s with
      | nil => exact absurd rfl hdne
      | cons c rest =>
        simp only []
        obtain ⟨hm, hp⟩ := digit_ne_sign (hdall c (List.mem_cons_self c _))
        rw [if_neg hm, if_neg hp]
        exact (atoiDigits_ok_iff _ _ false n).mpr
          ⟨by simp, hdall, Or.inr ⟨rfl, hn, by omega⟩⟩
    · subst hs
      unfold atoi
      simp only []
      rw [if_neg (by decide)]
      simp only [if_true]
      exact (atoiDigits_ok_iff _ _ false n).mpr ⟨hdne, hdall, Or.inr ⟨rfl, hn, by omega⟩⟩
    · subst hs
      unfold atoi
      simp only []
      simp only [if_true]
      exact (atoiDigits_ok_iff _ _ true n).mpr ⟨hdne, hdall, Or.inl ⟨rfl, hn, by omega⟩⟩

/-- C5: `getPort` returns 9 for the empty string; non-empty input succeeds
with value `n` exactly when the input parses as an integer `n` (optional sign
and decimal digits, within the `int64` range) with `n` in `{0, 7, 9}`; any
other parsed value yields the not-supported error and non-numeric text yields
the wrapped `Atoi` error. -/
theorem getPort_spec :
    getPort [] = .ok 9 ∧
    (∀ s n, s ≠ [] → (getPort s = .ok n ↔
      (IntShape s n ∧ -(2 ^ 63 : Int) ≤ n ∧ n ≤ 2 ^ 63 - 1) ∧ (n = 0 ∨ n = 7 ∨ n = 9))) ∧
    (∀ s n, s ≠ [] → atoi s = .ok n → ¬(n = 0 ∨ n = 7 ∨ n = 9) →
      getPort s = .error (.portNotSupported n)) ∧
    (∀ s e, s ≠ [] → atoi s = .error e → getPort s = .error (.invalidPort s e)) ∧
    getPort "0".data = .ok 0 ∧ getPort "7".data = .ok 7 ∧ getPort "9".data = .ok 9 ∧
    getPort "80".data = .error (.portNotSupported 80) ∧
    getPort "x".data = .error (.invalidPort "x".data (.atoiSyntax "x".data)) := by
  have hmain : ∀ s : List Char, s ≠ [] → getPort s = (match atoi s with
      | .error e => .error (.invalidPort s e)
      | .ok m => if m ∈ ([0, 7, 9] : List Int) then .ok m
                 else .error (.portNotSupported m)) := by
    intro s hne
    unfold getPort
    rw [if_neg hne]
  refine ⟨rfl, ?_, ?_, ?_, rfl, rfl, rfl, rfl, rfl⟩
  · intro s n hne
    rw [hmain s hne]
    constructor
    · intro h
      cases ha : atoi s with
      | error e =>
        rw [ha] at h
        simp only [] at h
        exact absurd h (by simp)
      | ok m =>
        rw [ha] at h
        simp only [] at h
        by_cases hm : m ∈ ([0, 7, 9] : List Int)
        · rw [if_pos hm] at h
          have hmn : m = n := by simpa using h
          subst hmn
          refine ⟨(atoi_ok_iff s m).mp ha, ?_⟩
          simpa using hm
        · rw [if_neg hm] at h
          exact absurd h (by simp)
    · rintro ⟨hshape, hmem⟩
      rw [(atoi_ok_iff s n).mpr hshape]
      simp only []
      rw [if_pos (by simpa using hmem)]
  · intro s n hne ha hnot
    rw [hmain s hne, ha]
    simp only []
    rw [if_neg (by simpa using hnot)]
  · intro s e hne ha
    rw [hmain s hne, ha]

theorem getPort_spec_witness : getPort "07".data = .ok 7 :=
  (getPort_spec.2.1 "07".data 7 (by decide)).mpr
    ⟨⟨⟨['0', '7'], by decide, by decide, Or.inl ⟨Or.inl rfl, by decide⟩⟩,
      by decide, by decide⟩, Or.inr (Or.inl rfl)⟩

end WakeOnLan
